import Mathlib

/-!
Verification of the connection-layer core of waitress (src/waitress/channel.py),
against the natural-language specification.  The channel code is embedded
shallowly: the `HTTPChannel` mutable object becomes the record `CState`, and each
method becomes a state-transforming function.  Collaborators that are not part
of the sources (the buffer classes of waitress.buffers, the HTTP parser, tasks,
and the wasyncore socket layer) are modelled from the specification, as noted on
each definition.  Socket behaviour and thread wake-ups enter as explicit oracle
arguments so that every definition is executable.
-/

namespace Waitress

/-- A byte, modelled as a natural number. -/
abbrev Byte := Nat

/-- Modelled from the spec: the three buffer variants of waitress.buffers that the
channel stores in its output deque (OverflowableBuffer, BytesIOBasedBuffer, and
ReadOnlyFileBasedBuffer whose seekability is resolved at preparation). -/
inductive BufKind where
  | overflowable
  | bytesBased
  | fileStream (sk : Bool)
deriving DecidableEq, Repr

/-- Modelled from the spec: a buffer is a byte source with a read position.  For
seekable buffers `content` is the full byte content and `pos` the bytes already
read; for an unseekable file stream `content` is the byte stream it will yield
and `eof` records whether an empty read has been observed. -/
structure OutBuf where
  kind : BufKind
  content : List Byte
  pos : Nat
  eof : Bool
deriving DecidableEq, Repr

/-- Modelled from the spec: seekability of a buffer; file streams carry the flag
resolved at preparation, the other variants are always seekable. -/
def OutBuf.seekable (b : OutBuf) : Bool :=
  match b.kind with
  | .fileStream sk => sk
  | _ => true

/-- Modelled from the spec: `remaining` is the residual byte count for a
seekable buffer, and the sentinel -1 (unknown-and-nonzero) for an unseekable
file stream until an empty read establishes 0. -/
def OutBuf.remaining (b : OutBuf) : Int :=
  if b.seekable then (b.content.length : Int) - (b.pos : Int)
  else if b.eof then 0 else -1

/-- The bytes a buffer has not yet yielded. -/
def OutBuf.pending (b : OutBuf) : List Byte := b.content.drop b.pos

/-- Modelled from the spec: `read(n)` returns up to n bytes and advances the
position; for an unseekable file stream the read that returns empty records
EOF (setting `remaining` to 0). -/
def OutBuf.read (b : OutBuf) (n : Nat) : List Byte × OutBuf :=
  let chunk := (b.content.drop b.pos).take n
  (chunk, { b with pos := b.pos + chunk.length,
                   eof := b.eof || (!b.seekable && chunk.isEmpty) })

/-- Modelled from the spec: `rollback(n)` reverses the read position by n bytes
(valid on seekable buffers only, which is how the channel uses it). -/
def OutBuf.rollback (b : OutBuf) (n : Nat) : OutBuf :=
  { b with pos := b.pos - n }

/-- Modelled from the spec: `append` extends a writable buffer with bytes. -/
def OutBuf.appendBytes (b : OutBuf) (d : List Byte) : OutBuf :=
  { b with content := b.content ++ d }

/-- Modelled from the spec (and test_buffers.test___bool__): a buffer is truthy
iff `remaining` is nonzero (-1 counts as truthy). -/
def OutBuf.truthy (b : OutBuf) : Bool := b.remaining != 0

/-- A fresh OverflowableBuffer as pushed by the channel (the overflow threshold
only governs in-memory spilling, which is invisible at the channel interface). -/
def freshOverflowable : OutBuf := ⟨.overflowable, [], 0, false⟩

/-- The configuration record `adj` consumed by the channel. -/
structure Adj where
  outbuf_overflow : Nat
  outbuf_high_watermark : Int
  send_bytes : Int
  recv_bytes : Nat
  expose_tracebacks : Bool
  log_socket_errors : Bool
deriving DecidableEq, Repr

/-- Modelled from the spec: the request parser interface the channel consumes
(attributes completed/empty/error/expect_continue/headers_finished/version/
headers of HTTPRequestParser); `error` carries the body of an attached
InternalServerError when set. -/
structure Parser where
  completed : Bool
  empty : Bool
  error : Option String
  expect_continue : Bool
  headers_finished : Bool
  version : String
  headers : List (String × String)
deriving DecidableEq, Repr

/-- Modelled from the spec: a freshly constructed parser (no request data seen). -/
def freshParser : Parser :=
  { completed := false, empty := false, error := none, expect_continue := false,
    headers_finished := false, version := "1.0", headers := [] }

/-- Case-exact header lookup on the parser's header mapping. -/
def hdrGet (hs : List (String × String)) (k : String) : Option String :=
  (hs.find? (fun p => p.1 = k)).map (fun p => p.2)

/-- Ghost events recording the observable actions of the channel: emission of
the 100-continue preface, invocations of _flush_some (locked or not), the
non-blocking try-acquire of the outbuf lock, condition notifies, promotion of
close_when_flushed to will_close, handle_close (recording has_outbuf_data at
entry), and task executions (recording whether an error task ran and against
which request). -/
inductive Ev where
  | preface
  | flushAttempt (locked : Bool)
  | tryAcquire (ok : Bool)
  | notifyEv
  | promote
  | closeEv (hadData : Bool)
  | execTask (isErr : Bool) (req : Parser)
deriving DecidableEq, Repr

/-- How the socket reacts to one `send` call: it accepts n bytes, or the
dispatcher-level send detects a dead peer and invokes handle_close returning 0
(the "handle_close may have been called by send()" comment in _flush_some), or
it raises socket.error. -/
inductive SendR where
  | ok (n : Nat)
  | drop
  | err
deriving DecidableEq, Repr

/-- The mutable state of an HTTPChannel, plus the ghost fields `delivered`
(bytes the socket accepted so far), `appended` (FIFO concatenation of all bytes
handed to the output queue) and `events`. -/
structure CState where
  outbufs : List OutBuf
  connected : Bool
  will_close : Bool
  close_when_flushed : Bool
  sent_continue : Bool
  requests : List Parser
  request : Option Parser
  known_outbufs_len : Int
  has_unseekable_outbufs : Bool
  has_outbuf_data : Bool
  current_outbuf_count : Int
  delivered : List Byte
  appended : List Byte
  events : List Ev
deriving DecidableEq, Repr

/-- `HTTPChannel.__init__`: the deque is seeded with one OverflowableBuffer and
all flags start at their class defaults; the accepted socket is connected. -/
def initState : CState :=
  { outbufs := [freshOverflowable], connected := true, will_close := false,
    close_when_flushed := false, sent_continue := false, requests := [],
    request := none, known_outbufs_len := 0, has_unseekable_outbufs := false,
    has_outbuf_data := false, current_outbuf_count := 0, delivered := [],
    appended := [], events := [] }

/-- `HTTPChannel.readable`: reads are admitted only when the channel is not
closing, no request is pending, and no output data remains. -/
def readable (s : CState) : Bool :=
  !(s.will_close || !s.requests.isEmpty || s.has_outbuf_data)

/-- `HTTPChannel.writable`. -/
def writable (s : CState) : Bool :=
  s.has_outbuf_data || s.will_close

/-- Sum of `remaining` over the seekable buffers (the loop of _scan_outbufs). -/
def scanKnown (l : List OutBuf) : Int :=
  (l.map (fun b => if b.seekable then b.remaining else 0)).sum

/-- Whether some queued buffer is unseekable (the loop of _scan_outbufs). -/
def scanUnseek (l : List OutBuf) : Bool :=
  l.any (fun b => !b.seekable)

/-- `HTTPChannel._scan_outbufs`: refresh the outbuf statistics. -/
def scanOutbufs (s : CState) : CState :=
  let k := scanKnown s.outbufs
  let u := scanUnseek s.outbufs
  { s with known_outbufs_len := k, has_unseekable_outbufs := u,
           has_outbuf_data := (k != 0) || u }

/-- `HTTPChannel.handle_close`: pop and close every buffer, zero the
statistics, mark the channel disconnected and wake any waiting worker. -/
def handleClose (s : CState) : CState :=
  { s with outbufs := [], known_outbufs_len := 0, has_outbuf_data := false,
           has_unseekable_outbufs := false, current_outbuf_count := 0,
           connected := false,
           events := s.events ++ [.closeEv s.has_outbuf_data] }

/-- `HTTPChannel.cancel`: mark closing, drop connectivity, clear pending. -/
def cancelOp (s : CState) : CState :=
  { s with will_close := true, connected := false, requests := [] }

/-- FIFO concatenation of the bytes still queued across all output buffers. -/
def pendingQ (l : List OutBuf) : List Byte :=
  l.foldr (fun b acc => b.pending ++ acc) []

/-- Append bytes to the tail buffer of the deque (`self.outbufs[-1].append`);
the empty-deque case cannot arise while the channel is connected. -/
def appendToTail : List OutBuf → List Byte → List OutBuf
  | [], _ => []
  | [b], d => [b.appendBytes d]
  | b :: bs, d => b :: appendToTail bs d

/-- The queue after one send of the flush loop that offered the head's chunk and
got `ns` bytes accepted: on a short send while connected, a seekable head is
rolled back by the unsent amount and an unseekable head has the unsent tail of
the chunk pushed to the front as a BytesIOBasedBuffer; otherwise the head just
keeps its advanced read position. -/
def flushQueue (sbuf : Nat) (b : OutBuf) (rest : List OutBuf) (ns : Nat)
    (conn : Bool) : List OutBuf :=
  if ns < ((b.read sbuf).1).length && conn then
    if b.seekable then ((b.read sbuf).2).rollback (((b.read sbuf).1).length - ns) :: rest
    else ⟨.bytesBased, ((b.read sbuf).1).drop ns, 0, false⟩ :: (b.read sbuf).2 :: rest
  else (b.read sbuf).2 :: rest

/-- The draining loops of `HTTPChannel._flush_some`, with explicit fuel.  Each
iteration either reads a chunk from the head buffer and offers it to the socket
(one oracle entry, interpreted by flushQueue), or pops an exhausted non-tail
head buffer.  A send accepting 0 bytes stops draining for this tick; an
exhausted oracle is treated the same way, as is exhausted fuel.  Statistics are
refreshed by _scan_outbufs on every exit.  The error result is a socket.error
raised by send, carrying the state at the raise (the read chunk is then lost,
as in the source, and no rescan happens). -/
def flushLoop (sbuf : Nat) : Nat → List SendR → CState → Except CState CState
  | 0, _, s => .ok (scanOutbufs s)
  | fuel + 1, so, s =>
    match s.outbufs with
    | [] => .ok (scanOutbufs s)
    | b :: rest =>
      if b.remaining != 0 then
        match so with
        | .err :: _ => .error { s with outbufs := (b.read sbuf).2 :: rest }
        | .drop :: _ =>
          .ok (scanOutbufs (handleClose { s with outbufs := (b.read sbuf).2 :: rest }))
        | [] =>
          .ok (scanOutbufs { s with outbufs := flushQueue sbuf b rest 0 s.connected })
        | .ok n :: so2 =>
          if min n ((b.read sbuf).1).length = 0 then
            .ok (scanOutbufs
              { s with
                delivered :=
                  s.delivered ++ ((b.read sbuf).1).take (min n ((b.read sbuf).1).length),
                outbufs := flushQueue sbuf b rest (min n ((b.read sbuf).1).length)
                  s.connected })
          else
            flushLoop sbuf fuel so2
              { s with
                delivered :=
                  s.delivered ++ ((b.read sbuf).1).take (min n ((b.read sbuf).1).length),
                outbufs := flushQueue sbuf b rest (min n ((b.read sbuf).1).length)
                  s.connected }
      else
        if rest.isEmpty then .ok (scanOutbufs s)
        else flushLoop sbuf fuel so { s with outbufs := rest }

/-- `HTTPChannel._flush_some`, run with enough fuel for the given oracle: every
iteration consumes an oracle entry or pops a buffer, and at most one buffer is
pushed per consumed entry. -/
def flushSome (sbuf : Nat) (so : List SendR) (s : CState) : Except CState CState :=
  flushLoop sbuf (2 * so.length + s.outbufs.length + 1) so s

/-- The literal 100-continue preface bytes written by `received`. -/
def prefaceBytes : List Byte :=
  "HTTP/1.1 100 Continue\r\n\r\n".toList.map Char.toNat

/-- The preface-emitting block of `HTTPChannel.received` (lines 187-192):
append the preface to the tail buffer, bump current_outbuf_count and
known_outbufs_len by its length, set has_outbuf_data and latch sent_continue. -/
def sendContinue (s : CState) : CState :=
  { s with outbufs := appendToTail s.outbufs prefaceBytes,
           current_outbuf_count := s.current_outbuf_count + prefaceBytes.length,
           known_outbufs_len := s.known_outbufs_len + prefaceBytes.length,
           has_outbuf_data := true, sent_continue := true,
           appended := s.appended ++ prefaceBytes,
           events := s.events ++ [.preface] }

/-- The direct `self._flush_some()` call inside `received`.  Per the spec the
reactor never propagates exceptions: a socket error surfacing from this flush
is recorded and the channel closed (spec, error-handling design). -/
def recvFlush (sbuf : Nat) (so : List SendR) (s : CState) : CState :=
  match flushSome sbuf so { s with events := s.events ++ [.flushAttempt false] } with
  | .ok t => t
  | .error t => handleClose t

/-- The 100-continue latch of `HTTPChannel.received` (lines 181-194), applied
to the parser state after a `parser.received` call: when the parser announces
expect_continue with finished headers, the flag is cleared; if the channel has
not yet sent the preface it emits it, flushes immediately, latches
sent_continue and forces the request not completed. -/
def continueLatch (sbuf : Nat) (so : List SendR) (s : CState) (p : Parser) :
    CState × Parser :=
  if p.expect_continue && p.headers_finished then
    let p1 := { p with expect_continue := false }
    if !s.sent_continue then
      (recvFlush sbuf so (sendContinue s), { p1 with completed := false })
    else (s, p1)
  else (s, p)

/-- One oracle entry for a `parser.received(data)` call: the number of bytes the
parser reports consumed and the parser attribute state after the call. -/
structure PEntry where
  n : Nat
  after : Parser
deriving DecidableEq, Repr

/-- End of the `received` loop: store the in-progress parser back on the
channel and, if completed requests accumulated, publish them (followed by
`server.add_task(self)` on the real channel). -/
def finishRecv (s : CState) (req : Option Parser) (acc : List Parser) : CState :=
  if acc.isEmpty then { s with request := req }
  else { s with request := req, requests := acc }

/-- The parsing loop of `HTTPChannel.received`: feed data to the in-progress
parser (fresh when none), run the 100-continue latch, collect completed
non-empty requests, and stop when the parser consumed all remaining data.  The
parser behaviour and the sockets seen by the latch flush come from oracles; an
exhausted oracle stops the loop. -/
def receivedLoop (sbuf : Nat) :
    List (PEntry × List SendR) → CState → Option Parser → Nat → List Parser → CState
  | [], s, req, _, acc => finishRecv s req acc
  | (e, so) :: os, s, _, dlen, acc =>
    if (continueLatch sbuf so s e.after).2.completed then
      if e.n ≥ dlen then
        finishRecv (continueLatch sbuf so s e.after).1 none
          (if (continueLatch sbuf so s e.after).2.empty then acc
           else acc ++ [(continueLatch sbuf so s e.after).2])
      else
        receivedLoop sbuf os (continueLatch sbuf so s e.after).1 none (dlen - e.n)
          (if (continueLatch sbuf so s e.after).2.empty then acc
           else acc ++ [(continueLatch sbuf so s e.after).2])
    else
      if e.n ≥ dlen then
        finishRecv (continueLatch sbuf so s e.after).1
          (some (continueLatch sbuf so s e.after).2) acc
      else
        receivedLoop sbuf os (continueLatch sbuf so s e.after).1
          (some (continueLatch sbuf so s e.after).2) (dlen - e.n) acc

/-- `HTTPChannel.received` on a chunk of `dlen` input bytes. -/
def received (sbuf : Nat) (os : List (PEntry × List SendR)) (dlen : Nat)
    (s : CState) : CState :=
  if dlen = 0 then s
  else receivedLoop sbuf os s s.request dlen []

/-- The try/except around a flush in `handle_write` (and the logging of the
flush attempt): socket errors and unexpected exceptions set will_close. -/
def flushCatch (sbuf : Nat) (so : List SendR) (locked : Bool) (s : CState) : CState :=
  match flushSome sbuf so { s with events := s.events ++ [.flushAttempt locked] } with
  | .ok t => t
  | .error t => { t with will_close := true }

/-- `HTTPChannel._flush_some_if_lockable`: non-blocking try-acquire of the
outbuf lock (outcome given by the oracle `acquired`); when acquired, flush and
notify the condition if known_outbufs_len fell below the high watermark.  An
exception from the flush releases the lock and propagates. -/
def flushSomeIfLockable (adj : Adj) (sbuf : Nat) (acquired : Bool)
    (so : List SendR) (s : CState) : Except CState CState :=
  if acquired then
    match flushSome sbuf so { s with events :=
        (s.events ++ [Ev.tryAcquire acquired]) ++ [Ev.flushAttempt true] } with
    | .ok t =>
      .ok (if t.known_outbufs_len < adj.outbuf_high_watermark
           then { t with events := t.events ++ [Ev.notifyEv] } else t)
    | .error t => .error t
  else .ok { s with events := s.events ++ [Ev.tryAcquire acquired] }

/-- The flush-mode selection of `HTTPChannel.handle_write`: unlocked flush when
no request is pending; try-locked flush when at least send_bytes of known data
or any unseekable data is queued; no flush otherwise.  Flush exceptions are
caught and recorded as will_close. -/
def hwFlush (adj : Adj) (sbuf : Nat) (acquired : Bool) (so : List SendR)
    (s : CState) : CState :=
  if s.requests.isEmpty then flushCatch sbuf so false s
  else if s.known_outbufs_len ≥ adj.send_bytes || s.has_unseekable_outbufs then
    match flushSomeIfLockable adj sbuf acquired so s with
    | .ok t => t
    | .error t => { t with will_close := true }
  else s

/-- The close_when_flushed promotion of `handle_write`: once no output data
remains, clear close_when_flushed and set will_close. -/
def hwPromote (s : CState) : CState :=
  if s.close_when_flushed && !s.has_outbuf_data then
    { s with close_when_flushed := false, will_close := true,
             events := s.events ++ [Ev.promote] }
  else s

/-- `HTTPChannel.handle_write`: on a connected channel, flush per hwFlush,
promote per hwPromote, and call handle_close when will_close is set. -/
def handleWrite (adj : Adj) (sbuf : Nat) (acquired : Bool) (so : List SendR)
    (s : CState) : CState :=
  if !s.connected then s
  else if (hwPromote (hwFlush adj sbuf acquired so s)).will_close then
    handleClose (hwPromote (hwFlush adj sbuf acquired so s))
  else hwPromote (hwFlush adj sbuf acquired so s)

/-- The payload of a `write_soon` call: application bytes, or a prepared
ReadOnlyFileBasedBuffer pushed via wsgi.file_wrapper. -/
inductive WData where
  | bytes (l : List Byte)
  | fileStr (b : OutBuf)
deriving DecidableEq, Repr

/-- The truthiness test `if data:` of `write_soon`: bytes are truthy when
nonempty, a file buffer when its remaining is nonzero. -/
def wTruthy : WData → Bool
  | .bytes l => !l.isEmpty
  | .fileStr b => b.truthy

/-- Bytes a payload actually adds to the queue (for the backpressure bound). -/
def wBytes : WData → Nat
  | .bytes l => l.length
  | .fileStr b => b.pending.length

/-- The append body of `HTTPChannel.write_soon` (run under the outbuf lock): a
file buffer is pushed as its own buffer followed by a fresh Overflowable tail
(tracking known or unseekable statistics by its remaining); bytes rotate the
tail first when current_outbuf_count exceeds the high watermark and are then
appended to the tail.  Returns the reported byte count (-1 for a file of
unknown length). -/
def writeSoonCore (adj : Adj) (d : WData) (s : CState) : CState × Int :=
  match d with
  | .fileStr b =>
    if b.remaining = -1 then
      ({ s with outbufs := s.outbufs ++ [b, freshOverflowable],
                current_outbuf_count := 0,
                appended := s.appended ++ b.pending,
                has_unseekable_outbufs := true, has_outbuf_data := true }, -1)
    else
      ({ s with outbufs := s.outbufs ++ [b, freshOverflowable],
                current_outbuf_count := 0,
                appended := s.appended ++ b.pending,
                known_outbufs_len := s.known_outbufs_len + b.remaining,
                has_outbuf_data := true }, b.remaining)
  | .bytes l =>
    if s.current_outbuf_count > adj.outbuf_high_watermark then
      ({ s with outbufs := appendToTail (s.outbufs ++ [freshOverflowable]) l,
                current_outbuf_count := 0 + (l.length : Int),
                known_outbufs_len := s.known_outbufs_len + l.length,
                has_outbuf_data := true,
                appended := s.appended ++ l }, (l.length : Int))
    else
      ({ s with outbufs := appendToTail s.outbufs l,
                current_outbuf_count := s.current_outbuf_count + l.length,
                known_outbufs_len := s.known_outbufs_len + l.length,
                has_outbuf_data := true,
                appended := s.appended ++ l }, (l.length : Int))

/-- The flow-control wait of `_flush_outbufs_below_high_watermark`: wait on the
condition while connected and above the high watermark; the oracle supplies the
channel state observed at each wake-up, and an exhausted oracle means the
worker is still blocked (result none). -/
def waitWhileAbove (adj : Adj) : CState → List CState → Option CState
  | s, ws =>
    if s.connected && s.known_outbufs_len > adj.outbuf_high_watermark then
      match ws with
      | [] => none
      | w :: ws2 => waitWhileAbove adj w ws2
    else some s

/-- `HTTPChannel.write_soon` with the flow-control wait made explicit: raise
ClientDisconnected when not connected (before or after the wait), return 0 on a
falsy payload, otherwise append after the wait completes.  `none` means the
call is still blocked in the wait. -/
def writeSoonW (adj : Adj) (d : WData) (ws : List CState) (s : CState) :
    Option (Except Unit (CState × Int)) :=
  if !s.connected then some (.error ())
  else if wTruthy d then
    match waitWhileAbove adj s ws with
    | none => none
    | some t =>
      if !t.connected then some (.error ())
      else some (.ok (writeSoonCore adj d t))
  else some (.ok (s, 0))

/-- `write_soon` as a single-thread state step (waiting does not itself change
the channel state; interleaved drains appear as separate handle_write steps):
the state after the call, unchanged when the call raises ClientDisconnected or
the payload is falsy. -/
def writeSoonSt (adj : Adj) (d : WData) (s : CState) : CState :=
  if !s.connected then s
  else if wTruthy d then (writeSoonCore adj d s).1
  else s

/-- Modelled from the spec: what a task does to the channel, as consumed by
`service` - the payloads it writes through write_soon, how its service call
ends, and its wrote_header / close_on_finish attributes. -/
inductive TOutcome where
  | ok
  | disc
  | exc (tb : String)
deriving DecidableEq, Repr

/-- Modelled from the spec: oracle for one task execution. -/
structure TaskO where
  writes : List WData
  outcome : TOutcome
  wrote_header : Bool
  close_on_finish : Bool
deriving DecidableEq, Repr

/-- Modelled from the spec: oracle for one error-task execution (an error task
must not throw, except ClientDisconnected which marks close_on_finish). -/
structure ErrTaskO where
  writes : List WData
  disc : Bool
  close_on_finish : Bool
deriving DecidableEq, Repr

/-- Run a task's write_soon calls in order; a ClientDisconnected aborts the
remaining writes and is reported. -/
def execWrites (adj : Adj) : List WData → CState → CState × Bool
  | [], s => (s, false)
  | d :: ds, s =>
    if !s.connected then (s, true)
    else if wTruthy d then execWrites adj ds (writeSoonCore adj d s).1
    else execWrites adj ds s

/-- The generic 500 body used when tracebacks are not exposed. -/
def genericErrBody : String :=
  "The server encountered an unexpected internal server error"

/-- The synthetic 500 request built by `service` after a worker exception
before headers were written: a fresh parser carrying an InternalServerError
body, the original request's HTTP version, and its CONNECTION header when
present. -/
def mkErrorRequest (body : String) (orig : Parser) : Parser :=
  let q := { freshParser with error := some body, version := orig.version }
  match hdrGet orig.headers "CONNECTION" with
  | some v => { q with headers := [("CONNECTION", v)] }
  | none => q

/-- Record the execution of a task (error task when isErr) against a request. -/
def execTaskEv (isErr : Bool) (r : Parser) (s : CState) : CState :=
  { s with events := s.events ++ [Ev.execTask isErr r] }

/-- The recovery path of `service` for a worker exception before response
headers were written: build the synthetic 500 request (traceback body exactly
when expose_tracebacks) and execute an error task against it; the error task
may only raise ClientDisconnected, which marks close_on_finish. -/
def serviceErrPath (adj : Adj) (ek : ErrTaskO) (tb : String) (r : Parser)
    (s : CState) : CState × Bool :=
  (execTaskEv true
      (mkErrorRequest (if adj.expose_tracebacks then tb else genericErrBody) r)
      (execWrites adj ek.writes s).1,
    ek.close_on_finish || (execWrites adj ek.writes s).2)

/-- One task execution of `HTTPChannel.service` against the head request `r`:
run the task's writes (a ClientDisconnected from them aborts the task), then
dispatch on how `task.service()` ended; the Bool is the final task's
close_on_finish. -/
def serviceOne (adj : Adj) (tk : TaskO) (ek : ErrTaskO) (r : Parser)
    (s : CState) : CState × Bool :=
  match (if (execWrites adj tk.writes s).2 then TOutcome.disc else tk.outcome) with
  | .disc => (execTaskEv r.error.isSome r (execWrites adj tk.writes s).1, true)
  | .ok =>
    (execTaskEv r.error.isSome r (execWrites adj tk.writes s).1, tk.close_on_finish)
  | .exc tb =>
    if !tk.wrote_header then
      serviceErrPath adj ek tb r
        (execTaskEv r.error.isSome r (execWrites adj tk.writes s).1)
    else (execTaskEv r.error.isSome r (execWrites adj tk.writes s).1, true)

/-- The request-servicing loop of `HTTPChannel.service`, under the task lock:
for the head request build an error task (when the request carries a parser
error) or a normal task and execute it (serviceOne); a close_on_finish task
sets close_when_flushed and clears all pending requests; otherwise the
completed request is popped (after waiting out the high watermark when more
requests remain, a wait that does not itself change the state). -/
def serviceLoop (adj : Adj) : List (TaskO × ErrTaskO) → CState → CState
  | [], s => s
  | (tk, ek) :: os, s =>
    match s.requests with
    | [] => s
    | r :: rest =>
      if (serviceOne adj tk ek r s).2 then
        { (serviceOne adj tk ek r s).1 with close_when_flushed := true, requests := [] }
      else serviceLoop adj os { (serviceOne adj tk ek r s).1 with requests := rest }

/-- Well-formedness of a buffer: the read position never passes the end, and
for an unseekable stream a recorded EOF means the stream is exhausted. -/
def BufWF (b : OutBuf) : Prop :=
  b.pos ≤ b.content.length ∧
  (b.seekable = false → b.eof = true → b.content.length ≤ b.pos)

/-- All queued buffers are well-formed. -/
def BufsWF (l : List OutBuf) : Prop := ∀ b ∈ l, BufWF b

/-- The tail of the output deque is a writable OverflowableBuffer. -/
def GoodTail (l : List OutBuf) : Prop :=
  ∃ b, l.getLast? = some b ∧ b.kind = BufKind.overflowable ∧ b.eof = false

/-- The cached statistics agree with a scan of the queue, and has_outbuf_data
is their disjunction. -/
def statsOK (s : CState) : Prop :=
  s.known_outbufs_len = scanKnown s.outbufs ∧
  s.has_unseekable_outbufs = scanUnseek s.outbufs ∧
  s.has_outbuf_data = ((s.known_outbufs_len != 0) || s.has_unseekable_outbufs)

/-- Number of 100-continue prefaces recorded in an event log. -/
def countPreface : List Ev → Nat
  | [] => 0
  | .preface :: es => countPreface es + 1
  | _ :: es => countPreface es

/-- The channel invariant: buffers are well-formed, statistics are accurate,
while connected the tail is a writable spillable buffer and the delivered bytes
followed by the still-queued bytes are exactly the appended bytes (after a
disconnect the delivered bytes remain a prefix of the appended bytes), and the
100-continue preface has been emitted at most once, never before sent_continue
latched. -/
def Inv (s : CState) : Prop :=
  BufsWF s.outbufs ∧ statsOK s ∧
  (s.connected = true → GoodTail s.outbufs) ∧
  (s.connected = true → s.delivered ++ pendingQ s.outbufs = s.appended) ∧
  (s.connected = false → ∃ r, s.delivered ++ r = s.appended) ∧
  (if s.sent_continue then countPreface s.events ≤ 1 else countPreface s.events = 0)

/-- Payloads handed to write_soon are well-formed: a pushed file buffer is a
prepared ReadOnlyFileBasedBuffer, hence well-formed. -/
def WDataWF : WData → Prop
  | .bytes _ => True
  | .fileStr b => BufWF b ∧ ∃ sk, b.kind = BufKind.fileStream sk

/-- A concrete adjustments record for the concrete channel runs below. -/
def adjD : Adj :=
  { outbuf_overflow := 100, outbuf_high_watermark := 100, send_bytes := 1,
    recv_bytes := 100, expose_tracebacks := false, log_socket_errors := false }

/-- A parser that has just completed a non-empty request. -/
def pDone : Parser := { freshParser with completed := true }

/-- A parser announcing Expect 100-continue with finished headers. -/
def pEC : Parser :=
  { freshParser with expect_continue := true, headers_finished := true }

/-- A task oracle whose task writes one byte and asks to close when finished. -/
def tk6 : TaskO :=
  { writes := [WData.bytes [65]], outcome := TOutcome.ok, wrote_header := false,
    close_on_finish := true }

/-- An error-task oracle that writes nothing. -/
def ek6 : ErrTaskO := { writes := [], disc := false, close_on_finish := false }

/-- A task oracle whose task raises before writing the response header. -/
def tk7 : TaskO :=
  { writes := [], outcome := TOutcome.exc "boom", wrote_header := false,
    close_on_finish := false }

/-- The channel after one completed request was received and then serviced by a
close_on_finish task that queued one byte of response: close_when_flushed is
now set while a byte of output is still pending. -/
def cs6 : CState :=
  serviceLoop adjD [(tk6, ek6)]
    (received 1 [({ n := 1, after := pDone }, [])] 1 initState)

/-- A channel with one pending request and five known queued bytes. -/
def s5 : CState :=
  { initState with requests := [freshParser],
                   outbufs := [⟨BufKind.overflowable, [1, 2, 3, 4, 5], 0, false⟩],
                   known_outbufs_len := 5, has_outbuf_data := true,
                   current_outbuf_count := 5, appended := [1, 2, 3, 4, 5] }

/-- What a completed `_flush_some` run guarantees relative to its start state:
only the queue, statistics, delivered bytes and (on a detected disconnect) the
event log change; statistics are freshly scanned; while still connected the
delivered and queued bytes are conserved and a good tail stays good; after a
disconnect detected by send the queue is empty and the delivered bytes remain a
prefix of what was available. -/
structure FlushOk (s t : CState) : Prop where
  hApp : t.appended = s.appended
  hSC : t.sent_continue = s.sent_continue
  hReqs : t.requests = s.requests
  hReq : t.request = s.request
  hWC : t.will_close = s.will_close
  hCWF : t.close_when_flushed = s.close_when_flushed
  hWF : BufsWF t.outbufs
  hStats : statsOK t
  hConn : t.connected = true →
    t.events = s.events ∧ t.current_outbuf_count = s.current_outbuf_count ∧
    t.delivered ++ pendingQ t.outbufs = s.delivered ++ pendingQ s.outbufs ∧
    (GoodTail s.outbufs → GoodTail t.outbufs)
  hDisc : t.connected = false →
    t.outbufs = [] ∧ (∃ h, t.events = s.events ++ [Ev.closeEv h]) ∧
    (∃ r, t.delivered ++ r = s.delivered ++ pendingQ s.outbufs)

/-- What a `_flush_some` run that raised socket.error guarantees: the channel
state is as at the raise (stats not rescanned, a read chunk possibly lost), the
connection flag and the non-queue fields are untouched, and the delivered
bytes are a prefix of what was available. -/
structure FlushErr (s t : CState) : Prop where
  hApp : t.appended = s.appended
  hSC : t.sent_continue = s.sent_continue
  hReqs : t.requests = s.requests
  hReq : t.request = s.request
  hWC : t.will_close = s.will_close
  hCWF : t.close_when_flushed = s.close_when_flushed
  hConn : t.connected = true
  hEv : t.events = s.events
  hKn : t.known_outbufs_len = s.known_outbufs_len
  hUn : t.has_unseekable_outbufs = s.has_unseekable_outbufs
  hHD : t.has_outbuf_data = s.has_outbuf_data
  hCur : t.current_outbuf_count = s.current_outbuf_count
  hWF : BufsWF t.outbufs
  hLost : ∃ r, t.delivered ++ r = s.delivered ++ pendingQ s.outbufs

/-- One still-connected iteration of the flush loop: the byte conservation and
frame facts that chain through the recursion. -/
structure StepRel (s t : CState) : Prop where
  hConn : t.connected = true
  hApp : t.appended = s.appended
  hSC : t.sent_continue = s.sent_continue
  hReqs : t.requests = s.requests
  hReq : t.request = s.request
  hWC : t.will_close = s.will_close
  hCWF : t.close_when_flushed = s.close_when_flushed
  hEv : t.events = s.events
  hCur : t.current_outbuf_count = s.current_outbuf_count
  hKn : t.known_outbufs_len = s.known_outbufs_len
  hUn : t.has_unseekable_outbufs = s.has_unseekable_outbufs
  hHD : t.has_outbuf_data = s.has_outbuf_data
  hWF : BufsWF t.outbufs
  hDel : t.delivered ++ pendingQ t.outbufs = s.delivered ++ pendingQ s.outbufs
  hTail : GoodTail s.outbufs → GoodTail t.outbufs

/-- Specification of a flush run: FlushOk for a normal return, FlushErr for a
raised socket.error. -/
def FlushRes (s : CState) : Except CState CState → Prop
  | .ok t => FlushOk s t
  | .error t => FlushErr s t

/-- The countPreface clause of the channel invariant on its own. -/
def cpOK (s : CState) : Prop :=
  if s.sent_continue then countPreface s.events ≤ 1 else countPreface s.events = 0

/-- Oracle well-formedness: every payload a task writes is well-formed. -/
def TaskOWF (tk : TaskO) : Prop := ∀ d ∈ tk.writes, WDataWF d

/-- Oracle well-formedness for an error task. -/
def ErrTaskOWF (ek : ErrTaskO) : Prop := ∀ d ∈ ek.writes, WDataWF d

/-- The union of the invariant and the doomed-but-closing states that
handle_write can pass through after a flush exception: will_close is set and
the delivered bytes remain a prefix. -/
def InvOrDoomed (s : CState) : Prop :=
  Inv s ∨ (s.will_close = true ∧ (∃ r, s.delivered ++ r = s.appended) ∧ cpOK s)

/-- The state carried by a flush result, whether it returned or raised. -/
def stateOfRes : Except CState CState → CState
  | .ok t => t
  | .error t => t

/-- One operation applied to a channel: a received call on a connected channel,
a handle_write tick, a write_soon call from a worker (well-formed payload), a
service run (well-formed task oracles), handle_close, or cancel. -/
inductive Step (adj : Adj) (sbuf : Nat) : CState → CState → Prop
  | recv (s : CState) (os : List (PEntry × List SendR)) (dlen : Nat)
      (hc : s.connected = true) : Step adj sbuf s (received sbuf os dlen s)
  | hw (s : CState) (acq : Bool) (so : List SendR) :
      Step adj sbuf s (handleWrite adj sbuf acq so s)
  | ws (s : CState) (d : WData) (hd : WDataWF d) :
      Step adj sbuf s (writeSoonSt adj d s)
  | svc (s : CState) (os : List (TaskO × ErrTaskO))
      (hos : ∀ p ∈ os, TaskOWF p.1 ∧ ErrTaskOWF p.2) :
      Step adj sbuf s (serviceLoop adj os s)
  | close (s : CState) : Step adj sbuf s (handleClose s)
  | cancelStep (s : CState) : Step adj sbuf s (cancelOp s)

/-- Channel states reachable from a fresh channel through channel operations. -/
inductive Reach (adj : Adj) (sbuf : Nat) : CState → Prop
  | init : Reach adj sbuf initState
  | step {s t : CState} : Reach adj sbuf s → Step adj sbuf s t → Reach adj sbuf t

end Waitress

namespace Waitress

theorem take_min_drop {α : Type} (l : List α) (n : Nat) :
    l.take n ++ l.drop (min n l.length) = l := by
  rcases le_total n l.length with h | h
  · rw [min_eq_left h, List.take_append_drop]
  · rw [min_eq_right h, List.drop_length, List.take_of_length_le h, List.append_nil]

theorem take_len_drop {α : Type} (l : List α) (n : Nat) :
    l.take n ++ l.drop (l.take n).length = l := by
  rw [List.length_take]; exact take_min_drop l n

theorem eof_appendBytes (b : OutBuf) (d : List Byte) :
    (b.appendBytes d).eof = b.eof := rfl

theorem kind_appendBytes (b : OutBuf) (d : List Byte) :
    (b.appendBytes d).kind = b.kind := rfl

theorem countPreface_append (l1 l2 : List Ev) :
    countPreface (l1 ++ l2) = countPreface l1 + countPreface l2 := by
  induction l1 with
  | nil => simp [countPreface]
  | cons e es ih =>
    cases e
    all_goals simp only [List.cons_append, countPreface, List.append_eq, ih]
    all_goals omega

theorem pendingQ_cons (b : OutBuf) (l : List OutBuf) :
    pendingQ (b :: l) = b.pending ++ pendingQ l := rfl

theorem pendingQ_append (l1 l2 : List OutBuf) :
    pendingQ (l1 ++ l2) = pendingQ l1 ++ pendingQ l2 := by
  induction l1 with
  | nil => simp [pendingQ]
  | cons b t ih => simp [pendingQ_cons, ih, List.append_assoc]

theorem pending_appendBytes (b : OutBuf) (d : List Byte) (h : BufWF b) :
    (b.appendBytes d).pending = b.pending ++ d := by
  unfold OutBuf.appendBytes OutBuf.pending
  exact List.drop_append_of_le_length h.1

theorem appendToTail_cons_shape (c : OutBuf) (u : List OutBuf) (d : List Byte) :
    ∃ x xs, appendToTail (c :: u) d = x :: xs := by
  cases u
  · exact ⟨c.appendBytes d, [], rfl⟩
  · exact ⟨c, _, rfl⟩

theorem appendToTail_getLast (l : List OutBuf) (d : List Byte) :
    (appendToTail l d).getLast? = l.getLast?.map (fun b => b.appendBytes d) := by
  induction l with
  | nil => simp [appendToTail]
  | cons b t ih =>
    cases t with
    | nil => simp [appendToTail]
    | cons c u =>
      rcases appendToTail_cons_shape c u d with ⟨x, xs, hx⟩
      have hstep : appendToTail (b :: c :: u) d = b :: appendToTail (c :: u) d := rfl
      rw [hstep, hx, List.getLast?_cons_cons, ← hx, ih, List.getLast?_cons_cons]

theorem pendingQ_appendToTail (l : List OutBuf) (d : List Byte)
    (hne : l ≠ []) (hwf : BufsWF l) :
    pendingQ (appendToTail l d) = pendingQ l ++ d := by
  induction l with
  | nil => exact absurd rfl hne
  | cons b t ih =>
    cases t with
    | nil =>
      show pendingQ [b.appendBytes d] = pendingQ [b] ++ d
      simp only [pendingQ, List.foldr]
      rw [pending_appendBytes b d (hwf b (by simp))]
      simp
    | cons c u =>
      have ht : BufsWF (c :: u) := fun x hx => hwf x (by simp [hx])
      show pendingQ (b :: appendToTail (c :: u) d) = pendingQ (b :: c :: u) ++ d
      rw [pendingQ_cons, ih (by simp) ht]
      simp [pendingQ_cons, List.append_assoc]

theorem seekable_appendBytes (b : OutBuf) (d : List Byte) :
    (b.appendBytes d).seekable = b.seekable := rfl

theorem remaining_appendBytes (b : OutBuf) (d : List Byte) (h : b.seekable = true) :
    (b.appendBytes d).remaining = b.remaining + d.length := by
  rcases b with ⟨k, c, p, e⟩
  unfold OutBuf.seekable at h
  unfold OutBuf.remaining OutBuf.appendBytes OutBuf.seekable
  cases k <;> simp_all <;> push_cast <;> ring

theorem scanKnown_appendToTail (l : List OutBuf) (d : List Byte)
    (hsk : ∀ b, l.getLast? = some b → b.seekable = true) (hne : l ≠ []) :
    scanKnown (appendToTail l d) = scanKnown l + d.length := by
  induction l with
  | nil => exact absurd rfl hne
  | cons b t ih =>
    cases t with
    | nil =>
      have hb : b.seekable = true := hsk b (by simp)
      show scanKnown [b.appendBytes d] = scanKnown [b] + d.length
      simp only [scanKnown, List.map_cons, List.map_nil, List.sum_cons, List.sum_nil]
      rw [seekable_appendBytes, remaining_appendBytes b d hb, hb]
      simp
    | cons c u =>
      have h2 : ∀ x, (c :: u).getLast? = some x → x.seekable = true := fun x hx =>
        hsk x (by rw [List.getLast?_cons_cons]; exact hx)
      show scanKnown (b :: appendToTail (c :: u) d) = scanKnown (b :: c :: u) + d.length
      simp only [scanKnown, List.map_cons, List.sum_cons]
      have hrec := ih h2 (by simp)
      simp only [scanKnown] at hrec
      rw [hrec]
      simp only [List.map_cons, List.sum_cons]
      ring

theorem scanUnseek_appendToTail (l : List OutBuf) (d : List Byte) :
    scanUnseek (appendToTail l d) = scanUnseek l := by
  induction l with
  | nil => rfl
  | cons b t ih =>
    cases t with
    | nil => simp [appendToTail, scanUnseek, seekable_appendBytes]
    | cons c u =>
      simp only [appendToTail, scanUnseek, List.any_cons] at *
      rw [ih]

theorem bufsWF_appendToTail (l : List OutBuf) (d : List Byte) (hwf : BufsWF l)
    (ht : GoodTail l) : BufsWF (appendToTail l d) := by
  induction l with
  | nil => exact hwf
  | cons b t ih =>
    cases t with
    | nil =>
      rcases ht with ⟨x, hx, _, he⟩
      have hxb : b = x := by simpa using hx
      subst hxb
      intro y hy
      have hyy : y = b.appendBytes d := by simpa [appendToTail] using hy
      subst hyy
      have hb := hwf b (by simp)
      refine ⟨?_, ?_⟩
      · have h1 := hb.1
        unfold OutBuf.appendBytes
        simp
        omega
      · intro _ hcon
        rw [eof_appendBytes] at hcon
        rw [hcon] at he
        cases he
    | cons c u =>
      rcases ht with ⟨x, hx, hk, he⟩
      rw [List.getLast?_cons_cons] at hx
      have ih2 := ih (fun y hy => hwf y (by simp [hy])) ⟨x, hx, hk, he⟩
      intro y hy
      have hstep : appendToTail (b :: c :: u) d = b :: appendToTail (c :: u) d := rfl
      rw [hstep] at hy
      rcases List.mem_cons.mp hy with h | h
      · subst h; exact hwf y (by simp)
      · exact ih2 y h

theorem goodTail_appendToTail (l : List OutBuf) (d : List Byte) (ht : GoodTail l) :
    GoodTail (appendToTail l d) := by
  rcases ht with ⟨b, hb, hk, he⟩
  refine ⟨b.appendBytes d, ?_, hk, he⟩
  rw [appendToTail_getLast, hb]
  rfl

theorem scanKnown_nonneg (l : List OutBuf) (hwf : BufsWF l) : 0 ≤ scanKnown l := by
  induction l with
  | nil => simp [scanKnown]
  | cons b t ih =>
    have hb := hwf b (by simp)
    have ht := ih (fun x hx => hwf x (by simp [hx]))
    have hbr : (0 : Int) ≤ if b.seekable then b.remaining else 0 := by
      by_cases hsk : b.seekable = true
      · unfold OutBuf.remaining
        simp only [hsk, if_true]
        have := hb.1
        omega
      · simp [hsk]
    simp only [scanKnown, List.map_cons, List.sum_cons] at *
    omega

theorem pending_nil_of_remaining_zero (b : OutBuf) (hwf : BufWF b)
    (h : b.remaining = 0) : b.pending = [] := by
  unfold OutBuf.remaining at h
  unfold OutBuf.pending
  split at h
  · apply List.drop_eq_nil_of_le
    omega
  · next hnsk =>
    split at h
    · next he =>
      apply List.drop_eq_nil_of_le
      exact hwf.2 (Bool.not_eq_true _ ▸ eq_false_of_ne_true hnsk) he
    · cases h

end Waitress

namespace Waitress

theorem stepRel_flushOk {s t u : CState} (h1 : StepRel s t) (h2 : FlushOk t u) :
    FlushOk s u := by
  refine ⟨h2.hApp.trans h1.hApp, h2.hSC.trans h1.hSC, h2.hReqs.trans h1.hReqs,
    h2.hReq.trans h1.hReq, h2.hWC.trans h1.hWC, h2.hCWF.trans h1.hCWF,
    h2.hWF, h2.hStats, ?_, ?_⟩
  · intro hc
    rcases h2.hConn hc with ⟨he, hcur, hdel, htl⟩
    exact ⟨he.trans h1.hEv, hcur.trans h1.hCur, hdel.trans h1.hDel,
      fun hg => htl (h1.hTail hg)⟩
  · intro hc
    rcases h2.hDisc hc with ⟨hb, ⟨h, he⟩, ⟨r, hr⟩⟩
    exact ⟨hb, ⟨h, by rw [he, h1.hEv]⟩, ⟨r, by rw [hr, h1.hDel]⟩⟩

theorem stepRel_flushErr {s t u : CState} (h1 : StepRel s t) (h2 : FlushErr t u) :
    FlushErr s u := by
  refine ⟨h2.hApp.trans h1.hApp, h2.hSC.trans h1.hSC, h2.hReqs.trans h1.hReqs,
    h2.hReq.trans h1.hReq, h2.hWC.trans h1.hWC, h2.hCWF.trans h1.hCWF,
    h2.hConn, h2.hEv.trans h1.hEv, h2.hKn.trans h1.hKn, h2.hUn.trans h1.hUn,
    h2.hHD.trans h1.hHD, h2.hCur.trans h1.hCur, h2.hWF, ?_⟩
  rcases h2.hLost with ⟨r, hr⟩
  exact ⟨r, by rw [hr, h1.hDel]⟩

theorem chunk_le_sbuf (b : OutBuf) (sbuf : Nat) :
    ((b.read sbuf).1).length ≤ sbuf := by
  unfold OutBuf.read
  simp [List.length_take]

theorem read_pos (b : OutBuf) (sbuf : Nat) :
    ((b.read sbuf).2).pos = b.pos + ((b.read sbuf).1).length := rfl

theorem read_content (b : OutBuf) (sbuf : Nat) :
    ((b.read sbuf).2).content = b.content := rfl

theorem read_kind (b : OutBuf) (sbuf : Nat) :
    ((b.read sbuf).2).kind = b.kind := rfl

theorem read_seekable (b : OutBuf) (sbuf : Nat) :
    ((b.read sbuf).2).seekable = b.seekable := rfl

theorem read_eof_of_seekable (b : OutBuf) (sbuf : Nat) (h : b.seekable = true) :
    ((b.read sbuf).2).eof = b.eof := by
  unfold OutBuf.read
  simp [h]

theorem read_chunk (b : OutBuf) (sbuf : Nat) :
    (b.read sbuf).1 = b.pending.take sbuf := rfl

theorem bufWF_read (b : OutBuf) (sbuf : Nat) (hwf : BufWF b) (hs : 0 < sbuf) :
    BufWF (b.read sbuf).2 := by
  have hlen : ((b.read sbuf).1).length ≤ b.content.length - b.pos := by
    rw [read_chunk]
    calc (b.pending.take sbuf).length ≤ b.pending.length := by
          simp [List.length_take]
      _ = b.content.length - b.pos := by simp [OutBuf.pending, List.length_drop]
  constructor
  · rw [read_pos, read_content]
    have hp := hwf.1
    omega
  · intro hnsk he
    rw [read_content, read_pos]
    rw [read_seekable] at hnsk
    unfold OutBuf.read at he
    simp only at he
    rcases Bool.or_eq_true_iff.mp he with h1 | h1
    · have := hwf.2 hnsk h1
      omega
    · rcases Bool.and_eq_true_iff.mp h1 with ⟨_, h3⟩
      have hch : b.pending.take sbuf = [] := by
        rw [← read_chunk b sbuf]
        exact List.isEmpty_iff.mp h3
      have hlen0 := congrArg List.length hch
      simp only [List.length_take, List.length_nil] at hlen0
      have hplen : b.pending.length = 0 := by omega
      simp only [OutBuf.pending, List.length_drop] at hplen
      omega

theorem read_pending (b : OutBuf) (sbuf : Nat) :
    ((b.read sbuf).2).pending = b.pending.drop ((b.read sbuf).1).length := by
  unfold OutBuf.pending
  rw [read_content, read_pos]
  rw [List.drop_drop, Nat.add_comm]

theorem roll_pending (b : OutBuf) (sbuf m : Nat)
    (hm : m ≤ ((b.read sbuf).1).length) :
    (((b.read sbuf).2).rollback m).pending =
      b.pending.drop (((b.read sbuf).1).length - m) := by
  unfold OutBuf.pending OutBuf.rollback
  simp only [read_content, read_pos]
  rw [List.drop_drop]
  congr 1
  omega

theorem roll_seekable (b : OutBuf) (m : Nat) :
    (b.rollback m).seekable = b.seekable := rfl

theorem bufWF_roll (b : OutBuf) (sbuf m : Nat) (hwf : BufWF b)
    (hsk : b.seekable = true) :
    BufWF (((b.read sbuf).2).rollback m) := by
  have hlen : ((b.read sbuf).1).length ≤ b.content.length - b.pos := by
    rw [read_chunk]
    calc (b.pending.take sbuf).length ≤ b.pending.length := by
          simp [List.length_take]
      _ = b.content.length - b.pos := by simp [OutBuf.pending, List.length_drop]
  have e1 : ((b.read sbuf).2).pos = b.pos + ((b.read sbuf).1).length := read_pos b sbuf
  have e2 : ((b.read sbuf).2).content.length = b.content.length := by rw [read_content]
  have h3 := hwf.1
  constructor
  · show ((b.read sbuf).2).pos - m ≤ ((b.read sbuf).2).content.length
    omega
  · intro hnsk
    rw [roll_seekable, read_seekable, hsk] at hnsk
    cases hnsk

theorem chunk_take_eq (b : OutBuf) (sbuf ns : Nat) (h : ns ≤ sbuf) :
    ((b.read sbuf).1).take ns = b.pending.take ns := by
  rw [read_chunk, List.take_take, min_eq_left h]

theorem chunk_append_read_pending (b : OutBuf) (sbuf : Nat) :
    (b.read sbuf).1 ++ ((b.read sbuf).2).pending = b.pending := by
  rw [read_pending, read_chunk]
  exact take_len_drop b.pending sbuf

theorem getLast?_cons_of_ne {α : Type} (x : α) (l : List α) (h : l ≠ []) :
    (x :: l).getLast? = l.getLast? := by
  cases l with
  | nil => exact absurd rfl h
  | cons a t => exact List.getLast?_cons_cons

theorem goodTail_iter (b x : OutBuf) (rest : List OutBuf)
    (hg : GoodTail (b :: rest)) (hk : x.kind = b.kind)
    (he : b.seekable = true → x.eof = b.eof) : GoodTail (x :: rest) := by
  cases rest with
  | nil =>
    rcases hg with ⟨y, hy, hyk, hye⟩
    have hyb : y = b := by simpa using hy.symm
    rw [hyb] at hyk hye
    have hsk : b.seekable = true := by
      simp [OutBuf.seekable, hyk]
    exact ⟨x, by simp, by rw [hk, hyk], by rw [he hsk, hye]⟩
  | cons c u =>
    rcases hg with ⟨y, hy, hyk, hye⟩
    rw [List.getLast?_cons_cons] at hy
    exact ⟨y, by rw [List.getLast?_cons_cons]; exact hy, hyk, hye⟩

theorem goodTail_front (x : OutBuf) (l : List OutBuf) (hg : GoodTail l)
    (h : l ≠ []) : GoodTail (x :: l) := by
  rcases hg with ⟨y, hy, hyk, hye⟩
  exact ⟨y, by rw [getLast?_cons_of_ne x l h]; exact hy, hyk, hye⟩

theorem goodTail_pop (b : OutBuf) (rest : List OutBuf) (hg : GoodTail (b :: rest))
    (h : rest ≠ []) : GoodTail rest := by
  rcases hg with ⟨y, hy, hyk, hye⟩
  rw [getLast?_cons_of_ne b rest h] at hy
  exact ⟨y, hy, hyk, hye⟩

theorem flushQueue_pendingQ (sbuf : Nat) (b : OutBuf) (rest : List OutBuf)
    (ns : Nat) (hns : ns ≤ ((b.read sbuf).1).length) :
    ((b.read sbuf).1).take ns ++ pendingQ (flushQueue sbuf b rest ns true) =
      pendingQ (b :: rest) := by
  have hk : ((b.read sbuf).1).length ≤ sbuf := chunk_le_sbuf b sbuf
  unfold flushQueue
  by_cases hlt : ns < ((b.read sbuf).1).length
  · have hcond : (decide (ns < ((b.read sbuf).1).length) && true) = true := by
      simp [hlt]
    rw [if_pos hcond]
    by_cases hsk : b.seekable = true
    · rw [if_pos hsk, pendingQ_cons,
        roll_pending b sbuf (((b.read sbuf).1).length - ns) (by omega)]
      have hmm : ((b.read sbuf).1).length - (((b.read sbuf).1).length - ns) = ns := by
        omega
      rw [hmm, chunk_take_eq b sbuf ns (by omega), pendingQ_cons, ← List.append_assoc,
        List.take_append_drop]
    · rw [if_neg hsk, pendingQ_cons, pendingQ_cons]
      have hnp : (OutBuf.pending ⟨BufKind.bytesBased, ((b.read sbuf).1).drop ns, 0, false⟩)
          = ((b.read sbuf).1).drop ns := by
        simp [OutBuf.pending]
      rw [hnp, pendingQ_cons, ← List.append_assoc, List.take_append_drop,
        ← List.append_assoc, chunk_append_read_pending]
  · have hcond : ¬((decide (ns < ((b.read sbuf).1).length) && true) = true) := by
      simp [hlt]
    rw [if_neg hcond]
    have hne : ns = ((b.read sbuf).1).length := by omega
    subst hne
    rw [List.take_length, pendingQ_cons, pendingQ_cons, ← List.append_assoc,
      chunk_append_read_pending]

theorem flushQueue_wf (sbuf : Nat) (b : OutBuf) (rest : List OutBuf) (ns : Nat)
    (conn : Bool) (hwf : BufsWF (b :: rest)) (hs : 0 < sbuf) :
    BufsWF (flushQueue sbuf b rest ns conn) := by
  have hb : BufWF b := hwf b (by simp)
  have hrest : ∀ x ∈ rest, BufWF x := fun x hx => hwf x (by simp [hx])
  unfold flushQueue
  split
  · split
    · next hsk =>
      intro x hx
      rcases List.mem_cons.mp hx with h | h
      · subst h
        exact bufWF_roll b sbuf _ hb hsk
      · exact hrest x h
    · intro x hx
      rcases List.mem_cons.mp hx with h | h
      · subst h
        constructor
        · simp
        · intro _ hcon
          cases hcon
      · rcases List.mem_cons.mp h with h2 | h2
        · subst h2
          exact bufWF_read b sbuf hb hs
        · exact hrest x h2
  · intro x hx
    rcases List.mem_cons.mp hx with h | h
    · subst h
      exact bufWF_read b sbuf hb hs
    · exact hrest x h

theorem flushQueue_tail (sbuf : Nat) (b : OutBuf) (rest : List OutBuf) (ns : Nat)
    (conn : Bool) (hg : GoodTail (b :: rest)) :
    GoodTail (flushQueue sbuf b rest ns conn) := by
  have hb1 : GoodTail ((b.read sbuf).2 :: rest) :=
    goodTail_iter b (b.read sbuf).2 rest hg (read_kind b sbuf)
      (fun h => read_eof_of_seekable b sbuf h)
  unfold flushQueue
  split
  · split
    · next hsk =>
      refine goodTail_iter b _ rest hg rfl ?_
      intro h
      show (((b.read sbuf).2).rollback (((b.read sbuf).1).length - ns)).eof = b.eof
      have hre : (((b.read sbuf).2).rollback (((b.read sbuf).1).length - ns)).eof
          = ((b.read sbuf).2).eof := rfl
      rw [hre, read_eof_of_seekable b sbuf h]
    · exact goodTail_front _ _ hb1 (by simp)
  · exact hb1

theorem flushOk_scan (s : CState) (hc : s.connected = true) (hwf : BufsWF s.outbufs) :
    FlushOk s (scanOutbufs s) := by
  refine ⟨rfl, rfl, rfl, rfl, rfl, rfl, hwf, ⟨rfl, rfl, rfl⟩, ?_, ?_⟩
  · intro _
    exact ⟨rfl, rfl, rfl, fun h => h⟩
  · intro hcf
    have : (scanOutbufs s).connected = s.connected := rfl
    rw [this, hc] at hcf
    cases hcf

theorem flushOk_drop (s : CState) (q : List OutBuf) :
    FlushOk s (scanOutbufs (handleClose { s with outbufs := q })) := by
  refine ⟨rfl, rfl, rfl, rfl, rfl, rfl, ?_, ⟨rfl, rfl, rfl⟩, ?_, ?_⟩
  · intro x hx
    cases hx
  · intro hcf
    have : (scanOutbufs (handleClose { s with outbufs := q })).connected = false := rfl
    rw [this] at hcf
    cases hcf
  · intro _
    exact ⟨rfl, ⟨s.has_outbuf_data, rfl⟩, ⟨pendingQ s.outbufs, rfl⟩⟩

theorem stepRel_flushRes {s t : CState} {r : Except CState CState}
    (h1 : StepRel s t) (h2 : FlushRes t r) : FlushRes s r := by
  cases r with
  | error e => exact stepRel_flushErr h1 h2
  | ok v => exact stepRel_flushOk h1 h2

theorem stepRel_send (sbuf : Nat) (hs : 0 < sbuf) (s : CState) (b : OutBuf)
    (rest : List OutBuf) (ns : Nat) (hc : s.connected = true)
    (hob : s.outbufs = b :: rest) (hwf : BufsWF s.outbufs)
    (hns : ns ≤ ((b.read sbuf).1).length) :
    StepRel s { s with delivered := s.delivered ++ ((b.read sbuf).1).take ns,
                       outbufs := flushQueue sbuf b rest ns s.connected } := by
  rw [hob] at hwf
  refine ⟨hc, rfl, rfl, rfl, rfl, rfl, rfl, rfl, rfl, rfl, rfl, rfl, ?_, ?_, ?_⟩
  · show BufsWF (flushQueue sbuf b rest ns s.connected)
    rw [hc]
    exact flushQueue_wf sbuf b rest ns true hwf hs
  · show (s.delivered ++ ((b.read sbuf).1).take ns) ++
      pendingQ (flushQueue sbuf b rest ns s.connected) =
      s.delivered ++ pendingQ s.outbufs
    rw [hc, hob, List.append_assoc, flushQueue_pendingQ sbuf b rest ns hns]
  · intro hg
    show GoodTail (flushQueue sbuf b rest ns s.connected)
    rw [hc]
    rw [hob] at hg
    exact flushQueue_tail sbuf b rest ns true hg

theorem stepRel_send0 (sbuf : Nat) (hs : 0 < sbuf) (s : CState) (b : OutBuf)
    (rest : List OutBuf) (hc : s.connected = true)
    (hob : s.outbufs = b :: rest) (hwf : BufsWF s.outbufs) :
    StepRel s { s with outbufs := flushQueue sbuf b rest 0 s.connected } := by
  rw [hob] at hwf
  refine ⟨hc, rfl, rfl, rfl, rfl, rfl, rfl, rfl, rfl, rfl, rfl, rfl, ?_, ?_, ?_⟩
  · show BufsWF (flushQueue sbuf b rest 0 s.connected)
    rw [hc]
    exact flushQueue_wf sbuf b rest 0 true hwf hs
  · show s.delivered ++ pendingQ (flushQueue sbuf b rest 0 s.connected) =
      s.delivered ++ pendingQ s.outbufs
    rw [hc, hob]
    have hq := flushQueue_pendingQ sbuf b rest 0 (Nat.zero_le _)
    rw [List.take_zero, List.nil_append] at hq
    rw [hq]
  · intro hg
    show GoodTail (flushQueue sbuf b rest 0 s.connected)
    rw [hc]
    rw [hob] at hg
    exact flushQueue_tail sbuf b rest 0 true hg

theorem stepRel_pop (s : CState) (b : OutBuf) (rest : List OutBuf)
    (hc : s.connected = true) (hob : s.outbufs = b :: rest)
    (hwf : BufsWF s.outbufs) (hrem : b.remaining = 0) (hrest : rest ≠ []) :
    StepRel s { s with outbufs := rest } := by
  rw [hob] at hwf
  have hbp : b.pending = [] :=
    pending_nil_of_remaining_zero b (hwf b (by simp)) hrem
  refine ⟨hc, rfl, rfl, rfl, rfl, rfl, rfl, rfl, rfl, rfl, rfl, rfl, ?_, ?_, ?_⟩
  · exact fun x hx => hwf x (by simp [hx])
  · show s.delivered ++ pendingQ rest = s.delivered ++ pendingQ s.outbufs
    rw [hob, pendingQ_cons, hbp, List.nil_append]
  · intro hg
    rw [hob] at hg
    exact goodTail_pop b rest hg hrest

theorem flushOk_scanStep {s s2 : CState} (h : StepRel s s2) :
    FlushOk s (scanOutbufs s2) :=
  stepRel_flushOk h (flushOk_scan s2 h.hConn h.hWF)

theorem flushLoop_spec (sbuf : Nat) (hs : 0 < sbuf) (fuel : Nat) :
    ∀ (so : List SendR) (s : CState), s.connected = true → BufsWF s.outbufs →
      FlushRes s (flushLoop sbuf fuel so s) := by
  induction fuel with
  | zero =>
    intro so s hc hwf
    exact flushOk_scan s hc hwf
  | succ fuel ih =>
    intro so s hc hwf
    unfold flushLoop
    split
    · exact flushOk_scan s hc hwf
    · next b rest hob =>
      have hwfc : BufsWF (b :: rest) := by rw [hob] at hwf; exact hwf
      split
      · split
        · refine ⟨rfl, rfl, rfl, rfl, rfl, rfl, hc, rfl, rfl, rfl, rfl, rfl, ?_, ?_⟩
          · intro x hx
            rcases List.mem_cons.mp hx with h | h
            · subst h
              exact bufWF_read b sbuf (hwfc b (by simp)) hs
            · exact hwfc x (by simp [h])
          · exact ⟨pendingQ s.outbufs, rfl⟩
        · exact flushOk_drop s _
        · exact flushOk_scanStep (stepRel_send0 sbuf hs s b rest hc hob hwf)
        · next n so2 =>
          split
          · exact flushOk_scanStep
              (stepRel_send sbuf hs s b rest _ hc hob hwf (Nat.min_le_right _ _))
          · have hst := stepRel_send sbuf hs s b rest (min n ((b.read sbuf).1).length)
              hc hob hwf (Nat.min_le_right _ _)
            exact stepRel_flushRes hst (ih so2 _ hst.hConn hst.hWF)
      · next hrem =>
        split
        · exact flushOk_scan s hc hwf
        · next hemp =>
          have hrem0 : b.remaining = 0 := by
            simpa using hrem
          have hrne : rest ≠ [] := by
            intro hr
            rw [hr] at hemp
            simp at hemp
          have hst := stepRel_pop s b rest hc hob hwf hrem0 hrne
          exact stepRel_flushRes hst (ih so _ hst.hConn hst.hWF)

/-- `_flush_some` satisfies the flush specification. -/
theorem flushSome_spec (sbuf : Nat) (hs : 0 < sbuf) (so : List SendR) (s : CState)
    (hc : s.connected = true) (hwf : BufsWF s.outbufs) :
    FlushRes s (flushSome sbuf so s) :=
  flushLoop_spec sbuf hs _ so s hc hwf

theorem scanKnown_append (l1 l2 : List OutBuf) :
    scanKnown (l1 ++ l2) = scanKnown l1 + scanKnown l2 := by
  unfold scanKnown
  rw [List.map_append, List.sum_append]

theorem scanUnseek_append (l1 l2 : List OutBuf) :
    scanUnseek (l1 ++ l2) = (scanUnseek l1 || scanUnseek l2) := by
  unfold scanUnseek
  rw [List.any_append]

theorem goodTail_ne_nil {l : List OutBuf} (h : GoodTail l) : l ≠ [] := by
  rcases h with ⟨b, hb, _, _⟩
  intro he
  rw [he] at hb
  cases hb

theorem goodTail_last_seekable {l : List OutBuf} (h : GoodTail l) :
    ∀ b, l.getLast? = some b → b.seekable = true := by
  rcases h with ⟨y, hy, hk, _⟩
  intro b hb
  rw [hy] at hb
  have : y = b := by injection hb
  rw [← this]
  simp [OutBuf.seekable, hk]

theorem inv_cpOK {s : CState} (inv : Inv s) : cpOK s := inv.2.2.2.2.2

theorem inv_lost {s : CState} (inv : Inv s) :
    ∃ r, s.delivered ++ r = s.appended := by
  cases hc : s.connected with
  | true => exact ⟨pendingQ s.outbufs, inv.2.2.2.1 hc⟩
  | false => exact inv.2.2.2.2.1 hc

theorem cpOK_appendEvents {s : CState} (h : cpOK s) (es : List Ev)
    (hes : countPreface es = 0) : cpOK { s with events := s.events ++ es } := by
  unfold cpOK at *
  simp only [countPreface_append, hes, Nat.add_zero]
  exact h

theorem inv_addEvents {s : CState} (inv : Inv s) (es : List Ev)
    (hes : countPreface es = 0) : Inv { s with events := s.events ++ es } := by
  obtain ⟨wf, st, tl, de, di, pre⟩ := inv
  refine ⟨wf, st, tl, de, di, ?_⟩
  have hx : cpOK s := pre
  have := cpOK_appendEvents hx es hes
  exact this

theorem inv_updateFlags {s : CState} (inv : Inv s) (w c2 : Bool)
    (rq : List Parser) (ro : Option Parser) :
    Inv { s with will_close := w, close_when_flushed := c2,
                 requests := rq, request := ro } := by
  obtain ⟨wf, st, tl, de, di, pre⟩ := inv
  exact ⟨wf, st, tl, de, di, pre⟩

/-- Closing any state whose delivered bytes are a prefix of its appended bytes
yields an invariant state. -/
theorem inv_closePre (t : CState) (hlost : ∃ r, t.delivered ++ r = t.appended)
    (hcp : cpOK t) : Inv (handleClose t) := by
  refine ⟨?_, ⟨rfl, rfl, rfl⟩, ?_, ?_, ?_, ?_⟩
  · intro x hx
    cases hx
  · intro hcf
    cases hcf
  · intro hcf
    cases hcf
  · intro _
    exact hlost
  · unfold cpOK at hcp
    show (if (handleClose t).sent_continue then
        countPreface (handleClose t).events ≤ 1
      else countPreface (handleClose t).events = 0)
    have hev : countPreface (handleClose t).events = countPreface t.events := by
      show countPreface (t.events ++ [Ev.closeEv t.has_outbuf_data]) = countPreface t.events
      rw [countPreface_append]
      rfl
    have hsc : (handleClose t).sent_continue = t.sent_continue := rfl
    rw [hev, hsc]
    exact hcp

theorem inv_handleClose {s : CState} (inv : Inv s) : Inv (handleClose s) :=
  inv_closePre s (inv_lost inv) (inv_cpOK inv)

theorem inv_cancel {s : CState} (inv : Inv s) : Inv (cancelOp s) := by
  obtain ⟨wf, st, tl, de, di, pre⟩ := inv
  refine ⟨wf, st, ?_, ?_, ?_, pre⟩
  · intro hcf
    cases hcf
  · intro hcf
    cases hcf
  · intro _
    have hl : ∃ r, s.delivered ++ r = s.appended :=
      inv_lost ⟨wf, st, tl, de, di, pre⟩
    exact hl

/-- Transport of the channel invariant across a completed flush. -/
theorem inv_flushOk {s t : CState} (inv : Inv s) (hc : s.connected = true)
    (hok : FlushOk s t) : Inv t := by
  obtain ⟨wf, st, tl, de, di, pre⟩ := inv
  refine ⟨hok.hWF, hok.hStats, ?_, ?_, ?_, ?_⟩
  · intro hct
    exact (hok.hConn hct).2.2.2 (tl hc)
  · intro hct
    rw [(hok.hConn hct).2.2.1, hok.hApp]
    exact de hc
  · intro hcf
    rcases (hok.hDisc hcf).2.2 with ⟨r, hr⟩
    refine ⟨r, ?_⟩
    rw [hr, hok.hApp]
    exact de hc
  · show cpOK t
    unfold cpOK at *
    have hsc : t.sent_continue = s.sent_continue := hok.hSC
    rw [hsc]
    cases hct : t.connected with
    | true =>
      rw [(hok.hConn hct).1]
      exact pre
    | false =>
      rcases (hok.hDisc hct).2.1 with ⟨h, he⟩
      rw [he, countPreface_append]
      have : countPreface [Ev.closeEv h] = 0 := rfl
      rw [this, Nat.add_zero]
      exact pre

/-- After a flush raised socket.error, the raise-state still has its delivered
bytes a prefix of its appended bytes and an unchanged preface count. -/
theorem flushErr_lost {s t : CState} (inv : Inv s) (hc : s.connected = true)
    (herr : FlushErr s t) : ∃ r, t.delivered ++ r = t.appended := by
  rcases herr.hLost with ⟨r, hr⟩
  refine ⟨r, ?_⟩
  rw [hr, herr.hApp]
  exact inv.2.2.2.1 hc

theorem flushErr_cpOK {s t : CState} (inv : Inv s) (herr : FlushErr s t) :
    cpOK t := by
  have pre : cpOK s := inv_cpOK inv
  unfold cpOK at *
  rw [herr.hSC, herr.hEv]
  exact pre

theorem prefaceBytes_length : prefaceBytes.length = 25 := rfl

theorem inv_sendContinue {s : CState} (inv : Inv s) (hc : s.connected = true)
    (hsc : s.sent_continue = false) : Inv (sendContinue s) := by
  obtain ⟨wf, st, tl, de, di, pre⟩ := inv
  have hg := tl hc
  have hne := goodTail_ne_nil hg
  have hsk := goodTail_last_seekable hg
  refine ⟨?_, ⟨?_, ?_, ?_⟩, ?_, ?_, ?_, ?_⟩
  · show BufsWF (appendToTail s.outbufs prefaceBytes)
    exact bufsWF_appendToTail _ _ wf hg
  · show s.known_outbufs_len + (prefaceBytes.length : Int) =
      scanKnown (appendToTail s.outbufs prefaceBytes)
    rw [scanKnown_appendToTail _ _ hsk hne, st.1]
  · show s.has_unseekable_outbufs = scanUnseek (appendToTail s.outbufs prefaceBytes)
    rw [scanUnseek_appendToTail, st.2.1]
  · show true = ((s.known_outbufs_len + (prefaceBytes.length : Int) != 0) ||
      s.has_unseekable_outbufs)
    have hk0 : (0:Int) ≤ s.known_outbufs_len := by
      rw [st.1]
      exact scanKnown_nonneg _ wf
    have hkn : (s.known_outbufs_len + (prefaceBytes.length : Int)) ≠ 0 := by
      rw [prefaceBytes_length]
      omega
    simp [hkn]
  · intro _
    exact goodTail_appendToTail _ _ hg
  · intro _
    show s.delivered ++ pendingQ (appendToTail s.outbufs prefaceBytes) =
      s.appended ++ prefaceBytes
    rw [pendingQ_appendToTail _ _ hne wf, ← List.append_assoc, de hc]
  · intro hcf
    rw [show (sendContinue s).connected = s.connected from rfl, hc] at hcf
    cases hcf
  · show cpOK (sendContinue s)
    unfold cpOK at *
    rw [hsc] at pre
    simp only [hsc] at *
    show (if true then countPreface (s.events ++ [Ev.preface]) ≤ 1
      else countPreface (s.events ++ [Ev.preface]) = 0)
    rw [if_pos rfl, countPreface_append, pre]
    simp [countPreface]

theorem inv_recvFlush {s : CState} (sbuf : Nat) (so : List SendR) (hs : 0 < sbuf)
    (inv : Inv s) (hc : s.connected = true) : Inv (recvFlush sbuf so s) := by
  unfold recvFlush
  have inv0 : Inv { s with events := s.events ++ [Ev.flushAttempt false] } :=
    inv_addEvents inv _ rfl
  have hc0 : ({ s with events := s.events ++ [Ev.flushAttempt false] } : CState).connected
      = true := hc
  have hres := flushSome_spec sbuf hs so _ hc0 inv0.1
  cases hr : flushSome sbuf so { s with events := s.events ++ [Ev.flushAttempt false] } with
  | ok t =>
    rw [hr] at hres
    exact inv_flushOk inv0 hc0 hres
  | error t =>
    rw [hr] at hres
    exact inv_closePre t (flushErr_lost inv0 hc0 hres) (flushErr_cpOK inv0 hres)

theorem recvFlush_sent {s : CState} (sbuf : Nat) (so : List SendR) (hs : 0 < sbuf)
    (inv : Inv s) (hc : s.connected = true) :
    (recvFlush sbuf so s).sent_continue = s.sent_continue := by
  unfold recvFlush
  have hc0 : ({ s with events := s.events ++ [Ev.flushAttempt false] } : CState).connected
      = true := hc
  have hres := flushSome_spec sbuf hs so
    { s with events := s.events ++ [Ev.flushAttempt false] } hc0
    (inv_addEvents inv [Ev.flushAttempt false] rfl).1
  cases hr : flushSome sbuf so { s with events := s.events ++ [Ev.flushAttempt false] } with
  | ok t =>
    rw [hr] at hres
    exact hres.hSC
  | error t =>
    rw [hr] at hres
    show t.sent_continue = s.sent_continue
    exact hres.hSC

theorem inv_continueLatch {s : CState} (sbuf : Nat) (so : List SendR) (p : Parser)
    (hs : 0 < sbuf) (inv : Inv s)
    (hsafe : s.connected = true ∨ s.sent_continue = true) :
    Inv (continueLatch sbuf so s p).1 ∧
      ((continueLatch sbuf so s p).1.connected = true ∨
        (continueLatch sbuf so s p).1.sent_continue = true) := by
  unfold continueLatch
  split
  · cases hv : s.sent_continue with
    | true =>
      simp only [hv, Bool.not_true, if_false]
      exact ⟨inv, Or.inr hv⟩
    | false =>
      have hc : s.connected = true := by
        rcases hsafe with h | h
        · exact h
        · rw [hv] at h
          cases h
      simp only [hv, Bool.not_false, if_true]
      have invsc := inv_sendContinue inv hc hv
      have hcsc : (sendContinue s).connected = true := hc
      refine ⟨inv_recvFlush sbuf so hs invsc hcsc, Or.inr ?_⟩
      rw [recvFlush_sent sbuf so hs invsc hcsc]
      rfl
  · exact ⟨inv, hsafe⟩

theorem inv_finishRecv {s : CState} (inv : Inv s) (req : Option Parser)
    (acc : List Parser) : Inv (finishRecv s req acc) := by
  unfold finishRecv
  obtain ⟨wf, st, tl, de, di, pre⟩ := inv
  split
  · exact ⟨wf, st, tl, de, di, pre⟩
  · exact ⟨wf, st, tl, de, di, pre⟩

theorem inv_receivedLoop (sbuf : Nat) (hs : 0 < sbuf) :
    ∀ (os : List (PEntry × List SendR)) (s : CState) (req : Option Parser)
      (dlen : Nat) (acc : List Parser),
      Inv s → (s.connected = true ∨ s.sent_continue = true) →
      Inv (receivedLoop sbuf os s req dlen acc) := by
  intro os
  induction os with
  | nil =>
    intro s req dlen acc inv _
    exact inv_finishRecv inv req acc
  | cons eo os ih =>
    intro s req dlen acc inv hsafe
    obtain ⟨e, so⟩ := eo
    obtain ⟨inv1, hsafe1⟩ := inv_continueLatch sbuf so e.after hs inv hsafe
    unfold receivedLoop
    split
    · split
      · exact inv_finishRecv inv1 none _
      · exact ih _ none _ _ inv1 hsafe1
    · split
      · exact inv_finishRecv inv1 _ acc
      · exact ih _ _ _ acc inv1 hsafe1

theorem inv_received {s : CState} (sbuf : Nat)
    (os : List (PEntry × List SendR)) (dlen : Nat) (hs : 0 < sbuf)
    (inv : Inv s) (hc : s.connected = true) : Inv (received sbuf os dlen s) := by
  unfold received
  split
  · exact inv
  · exact inv_receivedLoop sbuf hs os s s.request dlen [] inv (Or.inl hc)

theorem inv_appendTail {s : CState} (inv : Inv s) (hc : s.connected = true)
    (d : List Byte) (hd : d ≠ []) :
    Inv { s with outbufs := appendToTail s.outbufs d,
                 current_outbuf_count := s.current_outbuf_count + d.length,
                 known_outbufs_len := s.known_outbufs_len + d.length,
                 has_outbuf_data := true, appended := s.appended ++ d } := by
  obtain ⟨wf, st, tl, de, di, pre⟩ := inv
  have hg := tl hc
  have hne := goodTail_ne_nil hg
  have hsk := goodTail_last_seekable hg
  refine ⟨?_, ⟨?_, ?_, ?_⟩, ?_, ?_, ?_, ?_⟩
  · show BufsWF (appendToTail s.outbufs d)
    exact bufsWF_appendToTail _ _ wf hg
  · show s.known_outbufs_len + (d.length : Int) = scanKnown (appendToTail s.outbufs d)
    rw [scanKnown_appendToTail _ _ hsk hne, st.1]
  · show s.has_unseekable_outbufs = scanUnseek (appendToTail s.outbufs d)
    rw [scanUnseek_appendToTail, st.2.1]
  · show true = ((s.known_outbufs_len + (d.length : Int) != 0) ||
      s.has_unseekable_outbufs)
    have hk0 : (0:Int) ≤ s.known_outbufs_len := by
      rw [st.1]
      exact scanKnown_nonneg _ wf
    have hdl : 0 < d.length := List.length_pos.mpr hd
    have hkn : (s.known_outbufs_len + (d.length : Int)) ≠ 0 := by omega
    simp [hkn]
  · intro _
    exact goodTail_appendToTail _ _ hg
  · intro _
    show s.delivered ++ pendingQ (appendToTail s.outbufs d) = s.appended ++ d
    rw [pendingQ_appendToTail _ _ hne wf, ← List.append_assoc, de hc]
  · intro hcf
    rw [show s.connected = true from hc] at hcf
    cases hcf
  · exact pre

theorem inv_rotate {s : CState} (inv : Inv s) :
    Inv { s with outbufs := s.outbufs ++ [freshOverflowable],
                 current_outbuf_count := 0 } := by
  obtain ⟨wf, st, tl, de, di, pre⟩ := inv
  refine ⟨?_, ⟨?_, ?_, st.2.2⟩, ?_, ?_, di, pre⟩
  · intro x hx
    rcases List.mem_append.mp hx with h | h
    · exact wf x h
    · have : x = freshOverflowable := by simpa using h
      subst this
      exact ⟨by simp [freshOverflowable], by intro _ h2; cases h2⟩
  · show s.known_outbufs_len = scanKnown (s.outbufs ++ [freshOverflowable])
    rw [scanKnown_append, st.1]
    simp [scanKnown, freshOverflowable, OutBuf.remaining, OutBuf.seekable]
  · show s.has_unseekable_outbufs = scanUnseek (s.outbufs ++ [freshOverflowable])
    rw [scanUnseek_append, st.2.1]
    simp [scanUnseek, freshOverflowable, OutBuf.seekable]
  · intro _
    exact ⟨freshOverflowable, List.getLast?_concat _, rfl, rfl⟩
  · intro hcc
    show s.delivered ++ pendingQ (s.outbufs ++ [freshOverflowable]) = s.appended
    rw [pendingQ_append, show pendingQ [freshOverflowable] = [] from rfl,
      List.append_nil]
    exact de hcc

theorem freshOverflowable_wf : BufWF freshOverflowable :=
  ⟨by simp [freshOverflowable], by intro _ h2; cases h2⟩

theorem pushFile_wf {s : CState} (wf : BufsWF s.outbufs) (b : OutBuf)
    (hwfb : BufWF b) : BufsWF (s.outbufs ++ [b, freshOverflowable]) := by
  intro x hx
  rcases List.mem_append.mp hx with h | h
  · exact wf x h
  · rcases List.mem_cons.mp h with h2 | h2
    · subst h2; exact hwfb
    · have : x = freshOverflowable := by simpa using h2
      subst this
      exact freshOverflowable_wf

theorem pushFile_tail (l : List OutBuf) (b : OutBuf) :
    GoodTail (l ++ [b, freshOverflowable]) := by
  refine ⟨freshOverflowable, ?_, rfl, rfl⟩
  rw [show l ++ [b, freshOverflowable] = (l ++ [b]) ++ [freshOverflowable] by simp]
  exact List.getLast?_concat _

theorem pushFile_pendingQ (l : List OutBuf) (b : OutBuf) :
    pendingQ (l ++ [b, freshOverflowable]) = pendingQ l ++ b.pending := by
  rw [pendingQ_append, pendingQ_cons,
    show pendingQ [freshOverflowable] = [] from rfl, List.append_nil]

theorem pushFile_scanKnown (l : List OutBuf) (b : OutBuf) :
    scanKnown (l ++ [b, freshOverflowable]) =
      scanKnown l + (if b.seekable then b.remaining else 0) := by
  rw [scanKnown_append]
  simp only [scanKnown, List.map_cons, List.map_nil, List.sum_cons, List.sum_nil]
  have : (if freshOverflowable.seekable = true then freshOverflowable.remaining
      else 0) = 0 := by
    simp [freshOverflowable, OutBuf.remaining, OutBuf.seekable]
  rw [this]
  ring

theorem pushFile_scanUnseek (l : List OutBuf) (b : OutBuf) :
    scanUnseek (l ++ [b, freshOverflowable]) = (scanUnseek l || !b.seekable) := by
  rw [scanUnseek_append]
  simp [scanUnseek, freshOverflowable, OutBuf.seekable]

theorem inv_pushFileUnseek {s : CState} (inv : Inv s) (hc : s.connected = true)
    (b : OutBuf) (hwfb : BufWF b) (hm1 : b.remaining = -1) :
    Inv { s with outbufs := s.outbufs ++ [b, freshOverflowable],
                 current_outbuf_count := 0,
                 appended := s.appended ++ b.pending,
                 has_unseekable_outbufs := true, has_outbuf_data := true } := by
  obtain ⟨wf, st, tl, de, di, pre⟩ := inv
  have hskf : b.seekable = false := by
    by_contra hsk
    have hsk2 : b.seekable = true := by
      cases hv : b.seekable
      · exact absurd hv hsk
      · rfl
    unfold OutBuf.remaining at hm1
    rw [if_pos hsk2] at hm1
    have := hwfb.1
    omega
  refine ⟨pushFile_wf wf b hwfb, ⟨?_, ?_, ?_⟩, ?_, ?_, ?_, pre⟩
  · show s.known_outbufs_len = scanKnown (s.outbufs ++ [b, freshOverflowable])
    rw [pushFile_scanKnown, hskf, st.1]
    simp
  · show true = scanUnseek (s.outbufs ++ [b, freshOverflowable])
    rw [pushFile_scanUnseek, hskf]
    simp
  · show true = ((s.known_outbufs_len != 0) || true)
    simp
  · intro _
    exact pushFile_tail s.outbufs b
  · intro _
    show s.delivered ++ pendingQ (s.outbufs ++ [b, freshOverflowable]) =
      s.appended ++ b.pending
    rw [pushFile_pendingQ, ← List.append_assoc, de hc]
  · intro hcf
    rw [show s.connected = true from hc] at hcf
    cases hcf

theorem inv_pushFileSeek {s : CState} (inv : Inv s) (hc : s.connected = true)
    (b : OutBuf) (hwfb : BufWF b) (hbr : b.remaining ≠ 0)
    (hm1 : ¬b.remaining = -1) :
    Inv { s with outbufs := s.outbufs ++ [b, freshOverflowable],
                 current_outbuf_count := 0,
                 appended := s.appended ++ b.pending,
                 known_outbufs_len := s.known_outbufs_len + b.remaining,
                 has_outbuf_data := true } := by
  obtain ⟨wf, st, tl, de, di, pre⟩ := inv
  have hsk : b.seekable = true := by
    cases hv : b.seekable
    · exfalso
      unfold OutBuf.remaining at hbr hm1
      rw [if_neg (by simp [hv])] at hbr hm1
      cases hve : b.eof
      · rw [if_neg (by simp [hve])] at hm1
        exact hm1 rfl
      · rw [if_pos (by rw [hve])] at hbr
        exact hbr rfl
    · rfl
  have hbp : (0:Int) < b.remaining := by
    have h0 : (0:Int) ≤ b.remaining := by
      unfold OutBuf.remaining
      rw [if_pos hsk]
      have := hwfb.1
      omega
    omega
  refine ⟨pushFile_wf wf b hwfb, ⟨?_, ?_, ?_⟩, ?_, ?_, ?_, pre⟩
  · show s.known_outbufs_len + b.remaining =
      scanKnown (s.outbufs ++ [b, freshOverflowable])
    rw [pushFile_scanKnown, hsk, st.1]
    simp
  · show s.has_unseekable_outbufs = scanUnseek (s.outbufs ++ [b, freshOverflowable])
    rw [pushFile_scanUnseek, hsk, st.2.1]
    simp
  · show true = ((s.known_outbufs_len + b.remaining != 0) || s.has_unseekable_outbufs)
    have hk0 : (0:Int) ≤ s.known_outbufs_len := by
      rw [st.1]
      exact scanKnown_nonneg _ wf
    have : s.known_outbufs_len + b.remaining ≠ 0 := by omega
    simp [this]
  · intro _
    exact pushFile_tail s.outbufs b
  · intro _
    show s.delivered ++ pendingQ (s.outbufs ++ [b, freshOverflowable]) =
      s.appended ++ b.pending
    rw [pushFile_pendingQ, ← List.append_assoc, de hc]
  · intro hcf
    rw [show s.connected = true from hc] at hcf
    cases hcf

theorem inv_writeSoonCore (adj : Adj) (d : WData) {s : CState} (inv : Inv s)
    (hc : s.connected = true) (ht : wTruthy d = true) (hd : WDataWF d) :
    Inv (writeSoonCore adj d s).1 := by
  cases d with
  | fileStr b =>
    have hbr : b.remaining ≠ 0 := by
      have hbt : OutBuf.truthy b = true := ht
      unfold OutBuf.truthy at hbt
      simpa using hbt
    simp only [writeSoonCore]
    split
    · next hm1 =>
      exact inv_pushFileUnseek inv hc b hd.1 hm1
    · next hm1 =>
      exact inv_pushFileSeek inv hc b hd.1 hbr hm1
  | bytes l =>
    have hl : l ≠ [] := by
      have hbt : (!l.isEmpty) = true := ht
      simp only [Bool.not_eq_true', List.isEmpty_eq_false] at hbt
      exact hbt
    simp only [writeSoonCore]
    split
    · exact inv_appendTail (inv_rotate inv) hc l hl
    · exact inv_appendTail inv hc l hl

theorem inv_writeSoonSt (adj : Adj) (d : WData) {s : CState} (inv : Inv s)
    (hd : WDataWF d) : Inv (writeSoonSt adj d s) := by
  unfold writeSoonSt
  split
  · exact inv
  · split
    · next hcn ht =>
      have hc : s.connected = true := by
        cases hv : s.connected
        · rw [hv] at hcn
          simp at hcn
        · rfl
      exact inv_writeSoonCore adj d inv hc ht hd
    · exact inv

theorem inv_execWrites (adj : Adj) :
    ∀ (ds : List WData) {s : CState}, Inv s → (∀ d ∈ ds, WDataWF d) →
      Inv (execWrites adj ds s).1 := by
  intro ds
  induction ds with
  | nil => intro s inv _; exact inv
  | cons d ds ih =>
    intro s inv hwd
    unfold execWrites
    split
    · exact inv
    · split
      · next hcn ht =>
        have hc : s.connected = true := by
          cases hv : s.connected
          · rw [hv] at hcn
            simp at hcn
          · rfl
        exact ih (inv_writeSoonCore adj d inv hc ht (hwd d (by simp)))
          (fun x hx => hwd x (by simp [hx]))
      · exact ih inv (fun x hx => hwd x (by simp [hx]))

theorem inv_execTaskEv {s : CState} (inv : Inv s) (isErr : Bool) (r : Parser) :
    Inv (execTaskEv isErr r s) :=
  inv_addEvents inv [Ev.execTask isErr r] rfl

theorem inv_serviceOne (adj : Adj) (tk : TaskO) (ek : ErrTaskO) (r : Parser)
    {s : CState} (inv : Inv s) (htk : TaskOWF tk) (hek : ErrTaskOWF ek) :
    Inv (serviceOne adj tk ek r s).1 := by
  have inv1 : Inv (execTaskEv r.error.isSome r (execWrites adj tk.writes s).1) :=
    inv_execTaskEv (inv_execWrites adj tk.writes inv htk) _ r
  unfold serviceOne
  split
  · exact inv1
  · exact inv1
  · split
    · next tb _ =>
      unfold serviceErrPath
      exact inv_execTaskEv (inv_execWrites adj ek.writes inv1 hek) true _
    · exact inv1

theorem inv_serviceLoop (adj : Adj) :
    ∀ (os : List (TaskO × ErrTaskO)) {s : CState}, Inv s →
      (∀ p ∈ os, TaskOWF p.1 ∧ ErrTaskOWF p.2) →
      Inv (serviceLoop adj os s) := by
  intro os
  induction os with
  | nil => intro s inv _; exact inv
  | cons p os ih =>
    intro s inv hos
    obtain ⟨tk, ek⟩ := p
    have hwf1 := hos (tk, ek) (by simp)
    unfold serviceLoop
    split
    · exact inv
    · next r rest heq =>
      have invOne := inv_serviceOne adj tk ek r inv hwf1.1 hwf1.2
      split
      · exact inv_updateFlags invOne _ true []
          (serviceOne adj tk ek r s).1.request
      · exact ih (inv_updateFlags invOne _ _ rest (serviceOne adj tk ek r s).1.request)
          (fun q hq => hos q (by simp [hq]))

theorem inv_flushCatch {s : CState} (sbuf : Nat) (so : List SendR) (lk : Bool)
    (hs : 0 < sbuf) (inv : Inv s) (hc : s.connected = true) :
    InvOrDoomed (flushCatch sbuf so lk s) := by
  unfold flushCatch
  have inv0 : Inv { s with events := s.events ++ [Ev.flushAttempt lk] } :=
    inv_addEvents inv [Ev.flushAttempt lk] rfl
  have hc0 : ({ s with events := s.events ++ [Ev.flushAttempt lk] } : CState).connected
      = true := hc
  have hres := flushSome_spec sbuf hs so _ hc0 inv0.1
  cases hr : flushSome sbuf so { s with events := s.events ++ [Ev.flushAttempt lk] } with
  | ok t =>
    rw [hr] at hres
    exact Or.inl (inv_flushOk inv0 hc0 hres)
  | error t =>
    rw [hr] at hres
    have herr : FlushErr { s with events := s.events ++ [Ev.flushAttempt lk] } t := hres
    refine Or.inr ⟨rfl, ?_, ?_⟩
    · have hlost := flushErr_lost inv0 hc0 herr
      exact hlost
    · have hcp : cpOK t := flushErr_cpOK inv0 herr
      unfold cpOK at *
      exact hcp

theorem inv_flushSomeIfLockable {s : CState} (adj : Adj) (sbuf : Nat) (acq : Bool)
    (so : List SendR) (hs : 0 < sbuf) (inv : Inv s) (hc : s.connected = true) :
    InvOrDoomed (match flushSomeIfLockable adj sbuf acq so s with
      | .ok t => t
      | .error t => { t with will_close := true }) := by
  unfold flushSomeIfLockable
  by_cases hacq : acq = true
  · rw [if_pos hacq]
    have inv0 : Inv { s with events := (s.events ++ [Ev.tryAcquire acq]) ++
        [Ev.flushAttempt true] } := by
      have h1 := inv_addEvents inv [Ev.tryAcquire acq] rfl
      exact inv_addEvents h1 [Ev.flushAttempt true] rfl
    have hc0 : ({ s with events := (s.events ++ [Ev.tryAcquire acq]) ++
        [Ev.flushAttempt true] } : CState).connected = true := hc
    have hres := flushSome_spec sbuf hs so _ hc0 inv0.1
    cases hr : flushSome sbuf so { s with events := (s.events ++ [Ev.tryAcquire acq]) ++
        [Ev.flushAttempt true] } with
    | ok t =>
      rw [hr] at hres
      have invt : Inv t := inv_flushOk inv0 hc0 hres
      show InvOrDoomed (if t.known_outbufs_len < adj.outbuf_high_watermark
        then { t with events := t.events ++ [Ev.notifyEv] } else t)
      split
      · exact Or.inl (inv_addEvents invt [Ev.notifyEv] rfl)
      · exact Or.inl invt
    | error t =>
      rw [hr] at hres
      have herr : FlushErr { s with events := (s.events ++ [Ev.tryAcquire acq]) ++
          [Ev.flushAttempt true] } t := hres
      refine Or.inr ⟨rfl, ?_, ?_⟩
      · have hlost := flushErr_lost inv0 hc0 herr
        exact hlost
      · have hcp : cpOK t := flushErr_cpOK inv0 herr
        unfold cpOK at *
        exact hcp
  · rw [if_neg hacq]
    exact Or.inl (inv_addEvents inv [Ev.tryAcquire acq] rfl)

theorem invOrDoomed_hwFlush {s : CState} (adj : Adj) (sbuf : Nat) (acq : Bool)
    (so : List SendR) (hs : 0 < sbuf) (inv : Inv s) (hc : s.connected = true) :
    InvOrDoomed (hwFlush adj sbuf acq so s) := by
  unfold hwFlush
  split
  · exact inv_flushCatch sbuf so false hs inv hc
  · split
    · exact inv_flushSomeIfLockable adj sbuf acq so hs inv hc
    · exact Or.inl inv

theorem cpOK_transport {s t : CState} (hsc : t.sent_continue = s.sent_continue)
    (hev : countPreface t.events = countPreface s.events) (h : cpOK s) : cpOK t := by
  unfold cpOK at *
  rw [hsc, hev]
  exact h

theorem invOrDoomed_hwPromote {s : CState} (h : InvOrDoomed s) :
    InvOrDoomed (hwPromote s) := by
  unfold hwPromote
  split
  · have hcp2 : cpOK s → cpOK { s with close_when_flushed := false,
                                       will_close := true,
                                       events := s.events ++ [Ev.promote] } := by
      intro hcp
      refine cpOK_transport ?_ ?_ hcp
      · rfl
      · show countPreface (s.events ++ [Ev.promote]) = countPreface s.events
        rw [countPreface_append]
        rfl
    rcases h with hi | ⟨hwc, hlost, hcp⟩
    · obtain ⟨wf, st, tl, de, di, pre⟩ := hi
      exact Or.inl ⟨wf, st, tl, de, di, hcp2 pre⟩
    · exact Or.inr ⟨rfl, hlost, hcp2 hcp⟩
  · exact h

theorem inv_handleWrite (adj : Adj) (sbuf : Nat) (acq : Bool) (so : List SendR)
    {s : CState} (hs : 0 < sbuf) (inv : Inv s) :
    Inv (handleWrite adj sbuf acq so s) := by
  unfold handleWrite
  split
  · exact inv
  · next hcn =>
    have hc : s.connected = true := by
      cases hv : s.connected
      · rw [hv] at hcn
        simp at hcn
      · rfl
    have hp : InvOrDoomed (hwPromote (hwFlush adj sbuf acq so s)) :=
      invOrDoomed_hwPromote (invOrDoomed_hwFlush adj sbuf acq so hs inv hc)
    split
    · rcases hp with hi | ⟨_, hlost, hcp⟩
      · exact inv_handleClose hi
      · exact inv_closePre _ hlost hcp
    · next hwc =>
      rcases hp with hi | ⟨hwct, _, _⟩
      · exact hi
      · rw [hwct] at hwc
        simp at hwc

end Waitress

namespace Waitress

theorem inv_init : Inv initState := by
  refine ⟨?_, ⟨rfl, rfl, rfl⟩, ?_, ?_, ?_, ?_⟩
  · intro x hx
    have : x = freshOverflowable := by simpa [initState] using hx
    subst this
    exact freshOverflowable_wf
  · intro _
    exact ⟨freshOverflowable, rfl, rfl, rfl⟩
  · intro _
    rfl
  · intro h
    cases h
  · show cpOK initState
    unfold cpOK
    rfl

/-- Every reachable channel state satisfies the channel invariant. -/
theorem reach_inv {adj : Adj} {sbuf : Nat} (hs : 0 < sbuf) {s : CState}
    (h : Reach adj sbuf s) : Inv s := by
  induction h with
  | init => exact inv_init
  | step hr hst ih =>
    cases hst with
    | recv os dlen hc => exact inv_received _ os dlen hs ih hc
    | hw acq so => exact inv_handleWrite _ _ acq so hs ih
    | ws d hd => exact inv_writeSoonSt _ d ih hd
    | svc os hos => exact inv_serviceLoop _ os ih hos
    | close => exact inv_handleClose ih
    | cancelStep => exact inv_cancel ih

/-- Frame facts holding for any flush run, with no assumptions on the state:
the flush never touches sent_continue, will_close, close_when_flushed, the
request fields or the appended ghost, and only ever appends closeEv events. -/
theorem flushLoop_frame (sbuf : Nat) (fuel : Nat) :
    ∀ (so : List SendR) (s : CState),
      (stateOfRes (flushLoop sbuf fuel so s)).sent_continue = s.sent_continue
      ∧ (stateOfRes (flushLoop sbuf fuel so s)).will_close = s.will_close
      ∧ (stateOfRes (flushLoop sbuf fuel so s)).close_when_flushed =
          s.close_when_flushed
      ∧ (stateOfRes (flushLoop sbuf fuel so s)).requests = s.requests
      ∧ (stateOfRes (flushLoop sbuf fuel so s)).request = s.request
      ∧ (stateOfRes (flushLoop sbuf fuel so s)).appended = s.appended
      ∧ ∃ ext, (stateOfRes (flushLoop sbuf fuel so s)).events = s.events ++ ext
          ∧ ∀ e ∈ ext, ∃ hd, e = Ev.closeEv hd := by
  induction fuel with
  | zero =>
    intro so s
    exact ⟨rfl, rfl, rfl, rfl, rfl, rfl, [],
      by simp only [List.append_nil]; rfl, by intro e he; cases he⟩
  | succ fuel ih =>
    intro so s
    unfold flushLoop
    split
    · exact ⟨rfl, rfl, rfl, rfl, rfl, rfl, [],
        by simp only [List.append_nil]; rfl, by intro e he; cases he⟩
    · next b rest hob =>
      split
      · split
        · exact ⟨rfl, rfl, rfl, rfl, rfl, rfl, [],
            by simp only [List.append_nil]; rfl, by intro e he; cases he⟩
        · refine ⟨rfl, rfl, rfl, rfl, rfl, rfl,
            [Ev.closeEv s.has_outbuf_data], rfl, ?_⟩
          intro e he
          have hce : e = Ev.closeEv s.has_outbuf_data := by simpa using he
          exact ⟨s.has_outbuf_data, hce⟩
        · exact ⟨rfl, rfl, rfl, rfl, rfl, rfl, [],
            by simp only [List.append_nil]; rfl, by intro e he; cases he⟩
        · next n so2 =>
          split
          · exact ⟨rfl, rfl, rfl, rfl, rfl, rfl, [],
              by simp only [List.append_nil]; rfl, by intro e he; cases he⟩
          · exact ih so2 _
      · split
        · exact ⟨rfl, rfl, rfl, rfl, rfl, rfl, [],
            by simp only [List.append_nil]; rfl, by intro e he; cases he⟩
        · exact ih so _

/-- With an oracle of plain accepting sends, a flush never raises and never
disconnects, and adds no event. -/
theorem flushLoop_allok (sbuf : Nat) (fuel : Nat) :
    ∀ (so : List SendR) (s : CState), (∀ r ∈ so, ∃ n, r = SendR.ok n) →
      ∃ t, flushLoop sbuf fuel so s = Except.ok t ∧ t.connected = s.connected
        ∧ t.events = s.events := by
  induction fuel with
  | zero =>
    intro so s _
    exact ⟨scanOutbufs s, rfl, rfl, rfl⟩
  | succ fuel ih =>
    intro so s hok
    unfold flushLoop
    split
    · exact ⟨scanOutbufs s, rfl, rfl, rfl⟩
    · next b rest hob =>
      split
      · split
        · exfalso
          rcases hok SendR.err (by simp) with ⟨n, hn⟩
          cases hn
        · exfalso
          rcases hok SendR.drop (by simp) with ⟨n, hn⟩
          cases hn
        · exact ⟨_, rfl, rfl, rfl⟩
        · next n so2 =>
          split
          · exact ⟨_, rfl, rfl, rfl⟩
          · exact ih so2 _ (fun r hr => hok r (by simp [hr]))
      · split
        · exact ⟨scanOutbufs s, rfl, rfl, rfl⟩
        · exact ih so _ hok

theorem flushSome_frame (sbuf : Nat) (so : List SendR) (s : CState) :
    (stateOfRes (flushSome sbuf so s)).sent_continue = s.sent_continue
    ∧ (stateOfRes (flushSome sbuf so s)).will_close = s.will_close
    ∧ (stateOfRes (flushSome sbuf so s)).close_when_flushed = s.close_when_flushed
    ∧ (stateOfRes (flushSome sbuf so s)).requests = s.requests
    ∧ (stateOfRes (flushSome sbuf so s)).request = s.request
    ∧ (stateOfRes (flushSome sbuf so s)).appended = s.appended
    ∧ ∃ ext, (stateOfRes (flushSome sbuf so s)).events = s.events ++ ext
        ∧ ∀ e ∈ ext, ∃ hd, e = Ev.closeEv hd :=
  flushLoop_frame sbuf (2 * so.length + s.outbufs.length + 1) so s

theorem sc_recvFlush (sbuf : Nat) (so : List SendR) (s : CState)
    (h : s.sent_continue = true) : (recvFlush sbuf so s).sent_continue = true := by
  unfold recvFlush
  have hf := (flushSome_frame sbuf so
    { s with events := s.events ++ [Ev.flushAttempt false] }).1
  cases hr : flushSome sbuf so { s with events := s.events ++ [Ev.flushAttempt false] } with
  | ok t =>
    rw [hr] at hf
    show t.sent_continue = true
    rw [show (stateOfRes (Except.ok t)).sent_continue = t.sent_continue from rfl] at hf
    rw [hf]
    exact h
  | error t =>
    rw [hr] at hf
    show (handleClose t).sent_continue = true
    rw [show (stateOfRes (Except.error t)).sent_continue = t.sent_continue from rfl] at hf
    show t.sent_continue = true
    rw [hf]
    exact h

theorem sc_continueLatch (sbuf : Nat) (so : List SendR) (s : CState) (p : Parser)
    (h : s.sent_continue = true) :
    (continueLatch sbuf so s p).1.sent_continue = true := by
  unfold continueLatch
  split
  · simp only [h, Bool.not_true, if_false]
    exact h
  · exact h

theorem sc_receivedLoop (sbuf : Nat) :
    ∀ (os : List (PEntry × List SendR)) (s : CState) (req : Option Parser)
      (dlen : Nat) (acc : List Parser), s.sent_continue = true →
      (receivedLoop sbuf os s req dlen acc).sent_continue = true := by
  intro os
  induction os with
  | nil =>
    intro s req dlen acc h
    unfold receivedLoop finishRecv
    split <;> exact h
  | cons eo os ih =>
    intro s req dlen acc h
    obtain ⟨e, so⟩ := eo
    have h1 := sc_continueLatch sbuf so s e.after h
    unfold receivedLoop
    split
    · split
      · unfold finishRecv
        split <;> (try split) <;> exact h1
      · exact ih _ _ _ _ h1
    · split
      · unfold finishRecv
        split <;> (try split) <;> exact h1
      · exact ih _ _ _ _ h1

theorem sc_received (sbuf : Nat) (os : List (PEntry × List SendR)) (dlen : Nat)
    (s : CState) (h : s.sent_continue = true) :
    (received sbuf os dlen s).sent_continue = true := by
  unfold received
  split
  · exact h
  · exact sc_receivedLoop sbuf os s s.request dlen [] h

theorem sc_flushCatch (sbuf : Nat) (so : List SendR) (lk : Bool) (s : CState)
    (h : s.sent_continue = true) : (flushCatch sbuf so lk s).sent_continue = true := by
  unfold flushCatch
  have hf := (flushSome_frame sbuf so
    { s with events := s.events ++ [Ev.flushAttempt lk] }).1
  cases hr : flushSome sbuf so { s with events := s.events ++ [Ev.flushAttempt lk] } with
  | ok t =>
    rw [hr] at hf
    show t.sent_continue = true
    rw [show (stateOfRes (Except.ok t)).sent_continue = t.sent_continue from rfl] at hf
    rw [hf]
    exact h
  | error t =>
    rw [hr] at hf
    show t.sent_continue = true
    rw [show (stateOfRes (Except.error t)).sent_continue = t.sent_continue from rfl] at hf
    rw [hf]
    exact h

theorem sc_hwFlush (adj : Adj) (sbuf : Nat) (acq : Bool) (so : List SendR)
    (s : CState) (h : s.sent_continue = true) :
    (hwFlush adj sbuf acq so s).sent_continue = true := by
  unfold hwFlush
  split
  · exact sc_flushCatch sbuf so false s h
  · split
    · unfold flushSomeIfLockable
      by_cases hacq : acq = true
      · rw [if_pos hacq]
        have hf := (flushSome_frame sbuf so { s with events :=
          (s.events ++ [Ev.tryAcquire acq]) ++ [Ev.flushAttempt true] }).1
        cases hr : flushSome sbuf so { s with events :=
            (s.events ++ [Ev.tryAcquire acq]) ++ [Ev.flushAttempt true] } with
        | ok t =>
          rw [hr] at hf
          rw [show (stateOfRes (Except.ok t)).sent_continue = t.sent_continue
            from rfl] at hf
          show (if t.known_outbufs_len < adj.outbuf_high_watermark then
            { t with events := t.events ++ [Ev.notifyEv] } else t).sent_continue = true
          split
          · show t.sent_continue = true
            rw [hf]
            exact h
          · rw [hf]
            exact h
        | error t =>
          rw [hr] at hf
          rw [show (stateOfRes (Except.error t)).sent_continue = t.sent_continue
            from rfl] at hf
          show t.sent_continue = true
          rw [hf]
          exact h
      · rw [if_neg hacq]
        exact h
    · exact h

theorem sc_handleWrite (adj : Adj) (sbuf : Nat) (acq : Bool) (so : List SendR)
    (s : CState) (h : s.sent_continue = true) :
    (handleWrite adj sbuf acq so s).sent_continue = true := by
  have h1 := sc_hwFlush adj sbuf acq so s h
  have h2 : (hwPromote (hwFlush adj sbuf acq so s)).sent_continue = true := by
    unfold hwPromote
    split
    · exact h1
    · exact h1
  unfold handleWrite
  split
  · exact h
  · split
    · show (handleClose (hwPromote (hwFlush adj sbuf acq so s))).sent_continue = true
      exact h2
    · exact h2

theorem sc_writeSoonCore (adj : Adj) (d : WData) (s : CState) :
    (writeSoonCore adj d s).1.sent_continue = s.sent_continue := by
  cases d <;> simp only [writeSoonCore] <;> split <;> rfl

theorem sc_writeSoonSt (adj : Adj) (d : WData) (s : CState)
    (h : s.sent_continue = true) : (writeSoonSt adj d s).sent_continue = true := by
  unfold writeSoonSt
  split
  · exact h
  · split
    · rw [sc_writeSoonCore]
      exact h
    · exact h

theorem sc_execWrites (adj : Adj) :
    ∀ (ds : List WData) (s : CState), (execWrites adj ds s).1.sent_continue =
      s.sent_continue := by
  intro ds
  induction ds with
  | nil => intro s; rfl
  | cons d ds ih =>
    intro s
    unfold execWrites
    split
    · rfl
    · split
      · rw [ih, sc_writeSoonCore]
      · rw [ih]

theorem sc_serviceOne (adj : Adj) (tk : TaskO) (ek : ErrTaskO) (r : Parser)
    (s : CState) : (serviceOne adj tk ek r s).1.sent_continue = s.sent_continue := by
  unfold serviceOne
  split
  · show (execTaskEv r.error.isSome r (execWrites adj tk.writes s).1).sent_continue =
      s.sent_continue
    rw [show (execTaskEv r.error.isSome r (execWrites adj tk.writes s).1).sent_continue
      = (execWrites adj tk.writes s).1.sent_continue from rfl, sc_execWrites]
  · show (execTaskEv r.error.isSome r (execWrites adj tk.writes s).1).sent_continue =
      s.sent_continue
    rw [show (execTaskEv r.error.isSome r (execWrites adj tk.writes s).1).sent_continue
      = (execWrites adj tk.writes s).1.sent_continue from rfl, sc_execWrites]
  · split
    · unfold serviceErrPath
      show (execWrites adj ek.writes
        (execTaskEv r.error.isSome r (execWrites adj tk.writes s).1)).1.sent_continue =
        s.sent_continue
      rw [sc_execWrites]
      show (execWrites adj tk.writes s).1.sent_continue = s.sent_continue
      rw [sc_execWrites]
    · show (execTaskEv r.error.isSome r (execWrites adj tk.writes s).1).sent_continue =
        s.sent_continue
      rw [show (execTaskEv r.error.isSome r (execWrites adj tk.writes s).1).sent_continue
        = (execWrites adj tk.writes s).1.sent_continue from rfl, sc_execWrites]

theorem sc_serviceLoop (adj : Adj) :
    ∀ (os : List (TaskO × ErrTaskO)) (s : CState), s.sent_continue = true →
      (serviceLoop adj os s).sent_continue = true := by
  intro os
  induction os with
  | nil => intro s h; exact h
  | cons p os ih =>
    intro s h
    obtain ⟨tk, ek⟩ := p
    unfold serviceLoop
    split
    · exact h
    · split
      · show (serviceOne adj tk ek _ s).1.sent_continue = true
        rw [sc_serviceOne]
        exact h
      · refine ih _ ?_
        show (serviceOne adj tk ek _ s).1.sent_continue = true
        rw [sc_serviceOne]
        exact h

/-- Monotonicity of the sent_continue latch along any single operation. -/
theorem sc_step {adj : Adj} {sbuf : Nat} {s t : CState}
    (hst : Step adj sbuf s t) (h : s.sent_continue = true) :
    t.sent_continue = true := by
  cases hst with
  | recv os dlen hc => exact sc_received sbuf os dlen s h
  | hw acq so => exact sc_handleWrite adj sbuf acq so s h
  | ws d hd => exact sc_writeSoonSt adj d s h
  | svc os hos => exact sc_serviceLoop adj os s h
  | close => exact h
  | cancelStep => exact h

end Waitress

namespace Waitress

/-- Claim C3: for every channel state, readable() is true iff will_close is
false, the pending-request list is empty and has_outbuf_data is false; in
particular reads are refused whenever a request is pending or output remains
queued. -/
theorem readable_iff (s : CState) :
    readable s = true ↔
      s.will_close = false ∧ s.requests = [] ∧ s.has_outbuf_data = false := by
  unfold readable
  rcases s with ⟨ob, c, wc, cwf, sc, reqs, req, k, u, hd, cur, del, app, ev⟩
  simp only [Bool.not_eq_true']
  cases wc <;> cases hd <;> cases reqs <;> simp [List.isEmpty]

end Waitress

namespace Waitress

theorem flushSome_allok (sbuf : Nat) (so : List SendR) (s : CState)
    (hok : ∀ r ∈ so, ∃ n, r = SendR.ok n) :
    ∃ t, flushSome sbuf so s = Except.ok t ∧ t.connected = s.connected
      ∧ t.events = s.events :=
  flushLoop_allok sbuf (2 * so.length + s.outbufs.length + 1) so s hok

theorem flushCatch_events (sbuf : Nat) (so : List SendR) (lk : Bool)
    (s : CState) :
    ∃ ext, (flushCatch sbuf so lk s).events
        = (s.events ++ [Ev.flushAttempt lk]) ++ ext
      ∧ ∀ e ∈ ext, ∃ hd, e = Ev.closeEv hd := by
  have hf := (flushSome_frame sbuf so
    { s with events := s.events ++ [Ev.flushAttempt lk] }).2.2.2.2.2.2
  unfold flushCatch
  cases hr : flushSome sbuf so
      { s with events := s.events ++ [Ev.flushAttempt lk] } with
  | ok t =>
    rw [hr] at hf
    rcases hf with ⟨ext, he, hall⟩
    exact ⟨ext, he, hall⟩
  | error t =>
    rw [hr] at hf
    rcases hf with ⟨ext, he, hall⟩
    exact ⟨ext, he, hall⟩

theorem waitWhileAbove_exit (adj : Adj) :
    ∀ (ws : List CState) (s t : CState), waitWhileAbove adj s ws = some t →
      t.connected = true → t.known_outbufs_len ≤ adj.outbuf_high_watermark := by
  intro ws
  induction ws with
  | nil =>
    intro s t h hc
    unfold waitWhileAbove at h
    split at h
    · exact Option.noConfusion h
    · next hcond =>
      have hts : s = t := Option.some.inj h
      subst hts
      rw [hc] at hcond
      simp only [Bool.true_and, decide_eq_true_eq] at hcond
      omega
  | cons w ws2 ih =>
    intro s t h hc
    unfold waitWhileAbove at h
    split at h
    · exact ih w t h hc
    · next hcond =>
      have hts : s = t := Option.some.inj h
      subst hts
      rw [hc] at hcond
      simp only [Bool.true_and, decide_eq_true_eq] at hcond
      omega

theorem writeSoonCore_known_le (adj : Adj) (d : WData) (s : CState)
    (hwf : WDataWF d) :
    ((writeSoonCore adj d s).1).known_outbufs_len
      ≤ s.known_outbufs_len + (wBytes d : Int) := by
  cases d with
  | bytes l =>
    simp only [writeSoonCore]
    split
    · exact le_of_eq rfl
    · exact le_of_eq rfl
  | fileStr b =>
    have hb : b.remaining ≤ ((wBytes (WData.fileStr b)) : Int) := by
      have hwb : (wBytes (WData.fileStr b)) = b.pending.length := rfl
      rw [hwb]
      rcases hwf with ⟨hbwf, _⟩
      unfold OutBuf.remaining OutBuf.pending
      rw [List.length_drop]
      by_cases hsk : b.seekable = true
      · rw [if_pos hsk]
        have h1 := hbwf.1
        omega
      · rw [if_neg hsk]
        split
        · omega
        · omega
    simp only [writeSoonCore]
    split
    · show s.known_outbufs_len
          ≤ s.known_outbufs_len + ((wBytes (WData.fileStr b)) : Int)
      have h0 : (0 : Int) ≤ ((wBytes (WData.fileStr b)) : Int) := Int.ofNat_nonneg _
      omega
    · show s.known_outbufs_len + b.remaining
          ≤ s.known_outbufs_len + ((wBytes (WData.fileStr b)) : Int)
      omega

theorem mkErrorRequest_spec (body : String) (orig : Parser) :
    (mkErrorRequest body orig).error = some body
    ∧ (mkErrorRequest body orig).version = orig.version
    ∧ hdrGet (mkErrorRequest body orig).headers "CONNECTION"
        = hdrGet orig.headers "CONNECTION" := by
  cases hh : hdrGet orig.headers "CONNECTION" with
  | none =>
    have he : mkErrorRequest body orig
        = { freshParser with
            error := some body, version := orig.version } := by
      simp only [mkErrorRequest, hh]
    rw [he]
    exact ⟨rfl, rfl, rfl⟩
  | some v =>
    have he : mkErrorRequest body orig
        = { freshParser with
            error := some body, version := orig.version,
            headers := [("CONNECTION", v)] } := by
      simp only [mkErrorRequest, hh]
    rw [he]
    exact ⟨rfl, rfl, rfl⟩

end Waitress

namespace Waitress

theorem hwFlush_allok (adj : Adj) (sbuf : Nat) (acq : Bool) (so : List SendR)
    (s : CState) (hok : ∀ r ∈ so, ∃ n, r = SendR.ok n) :
    (hwFlush adj sbuf acq so s).will_close = s.will_close
    ∧ (hwFlush adj sbuf acq so s).close_when_flushed = s.close_when_flushed
    ∧ ∃ ext, (hwFlush adj sbuf acq so s).events = s.events ++ ext
        ∧ ∀ hd, Ev.closeEv hd ∉ ext := by
  unfold hwFlush
  split
  · unfold flushCatch
    rcases flushSome_allok sbuf so
        { s with events := s.events ++ [Ev.flushAttempt false] } hok with
      ⟨t, hft, hconn, hev⟩
    have hfr := flushSome_frame sbuf so
      { s with events := s.events ++ [Ev.flushAttempt false] }
    rw [hft] at hfr
    rw [hft]
    refine ⟨hfr.2.1, hfr.2.2.1, [Ev.flushAttempt false], hev, ?_⟩
    intro hd hmem
    simp at hmem
  · split
    · cases acq with
      | false =>
        have hfl : flushSomeIfLockable adj sbuf false so s
            = Except.ok { s with events := s.events ++ [Ev.tryAcquire false] } := by
          unfold flushSomeIfLockable
          rfl
        rw [hfl]
        refine ⟨rfl, rfl, [Ev.tryAcquire false], rfl, ?_⟩
        intro hd hmem
        simp at hmem
      | true =>
        rcases flushSome_allok sbuf so
            { s with events :=
                (s.events ++ [Ev.tryAcquire true]) ++ [Ev.flushAttempt true] }
            hok with ⟨t, hft, hconn, hev⟩
        have hfr := flushSome_frame sbuf so
          { s with events :=
              (s.events ++ [Ev.tryAcquire true]) ++ [Ev.flushAttempt true] }
        rw [hft] at hfr
        have hfl : flushSomeIfLockable adj sbuf true so s
            = Except.ok (if t.known_outbufs_len < adj.outbuf_high_watermark
                then { t with events := t.events ++ [Ev.notifyEv] } else t) := by
          unfold flushSomeIfLockable
          rw [if_pos rfl, hft]
        by_cases hlt : t.known_outbufs_len < adj.outbuf_high_watermark
        · rw [hfl, if_pos hlt]
          refine ⟨hfr.2.1, hfr.2.2.1,
            [Ev.tryAcquire true, Ev.flushAttempt true, Ev.notifyEv], ?_, ?_⟩
          · show t.events ++ [Ev.notifyEv]
              = s.events ++ [Ev.tryAcquire true, Ev.flushAttempt true, Ev.notifyEv]
            rw [hev]
            simp
          · intro hd hmem
            simp at hmem
        · rw [hfl, if_neg hlt]
          refine ⟨hfr.2.1, hfr.2.2.1,
            [Ev.tryAcquire true, Ev.flushAttempt true], ?_, ?_⟩
          · show t.events = s.events ++ [Ev.tryAcquire true, Ev.flushAttempt true]
            rw [hev]
            simp
          · intro hd hmem
            simp at hmem
    · refine ⟨rfl, rfl, [], by simp, ?_⟩
      intro hd hmem
      cases hmem

end Waitress

namespace Waitress

/-- Claim C1: partial-send recovery in _flush_some preserves byte order: on a
short send of a chunk while connected, a seekable head buffer is rolled back by
the unsent amount and an unseekable head gets exactly the unsent suffix of the
chunk pushed to the front as an in-memory buffer, so the queued bytes lose
exactly the sent prefix; consequently, in every channel state reachable by any
sequence of appends and drains, the bytes delivered to the socket are a prefix
of the FIFO concatenation of the appended bytes, in order and without loss or
duplication. -/
theorem flush_byte_order (adj : Adj) (sbuf : Nat) (hs : 0 < sbuf) :
    (∀ (b : OutBuf) (rest : List OutBuf) (ns : Nat),
      ns < ((b.read sbuf).1).length →
      (b.seekable = true →
        flushQueue sbuf b rest ns true
          = ((b.read sbuf).2).rollback (((b.read sbuf).1).length - ns) :: rest)
      ∧ (b.seekable = false →
        flushQueue sbuf b rest ns true
          = { kind := BufKind.bytesBased, content := ((b.read sbuf).1).drop ns,
              pos := 0, eof := false } :: (b.read sbuf).2 :: rest)
      ∧ ((b.read sbuf).1).take ns ++ pendingQ (flushQueue sbuf b rest ns true)
          = pendingQ (b :: rest))
    ∧ (∀ s : CState, Reach adj sbuf s →
        ∃ r, s.delivered ++ r = s.appended) := by
  constructor
  · intro b rest ns hns
    have hcond : (decide (ns < ((b.read sbuf).1).length) && true) = true := by
      simp [hns]
    refine ⟨?_, ?_, flushQueue_pendingQ sbuf b rest ns (le_of_lt hns)⟩
    · intro hsk
      unfold flushQueue
      rw [if_pos hcond, if_pos hsk]
    · intro hsk
      unfold flushQueue
      rw [if_pos hcond, if_neg (by rw [hsk]; exact Bool.false_ne_true)]
  · intro s hr
    have inv := reach_inv hs hr
    cases hcc : s.connected with
    | true => exact ⟨pendingQ s.outbufs, inv.2.2.2.1 hcc⟩
    | false => exact inv.2.2.2.2.1 hcc

/-- Witness for flush_byte_order: a concrete channel that queued one byte. -/
theorem flush_byte_order_witness :
    ∃ r, (writeSoonSt adjD (WData.bytes [72]) initState).delivered ++ r
        = (writeSoonSt adjD (WData.bytes [72]) initState).appended :=
  (flush_byte_order adjD 1 Nat.one_pos).2 _
    (Reach.step Reach.init (Step.ws initState (WData.bytes [72]) True.intro))

/-- Claim C2: backpressure bound of write_soon: with a truthy payload the call
stays blocked in the flow-control wait while the channel is connected above
the high watermark (an empty wake-up oracle leaves it blocked), and a call
that returns normally leaves known_outbufs_len at most the high watermark plus
the number of bytes the call appended. -/
theorem write_soon_backpressure (adj : Adj) (d : WData) (ws : List CState)
    (s : CState) (hwf : WDataWF d) (htr : wTruthy d = true) :
    (s.connected = true →
      adj.outbuf_high_watermark < s.known_outbufs_len →
      writeSoonW adj d [] s = none)
    ∧ (∀ (t : CState) (n : Int),
        writeSoonW adj d ws s = some (Except.ok (t, n)) →
        t.known_outbufs_len ≤ adj.outbuf_high_watermark + (wBytes d : Int)) := by
  constructor
  · intro hc hgt
    have h1 : (!s.connected) = false := by rw [hc]; rfl
    unfold writeSoonW
    rw [h1, if_neg Bool.false_ne_true, if_pos htr]
    have hcond : (s.connected
        && decide (s.known_outbufs_len > adj.outbuf_high_watermark)) = true := by
      rw [hc]
      simp only [Bool.true_and, decide_eq_true_eq]
      exact hgt
    have hw0 : waitWhileAbove adj s [] = none := by
      unfold waitWhileAbove
      rw [if_pos hcond]
    rw [hw0]
  · intro t n hret
    unfold writeSoonW at hret
    cases hcc : s.connected with
    | false =>
      have h1 : (!s.connected) = true := by rw [hcc]; rfl
      rw [h1, if_pos rfl] at hret
      simp at hret
    | true =>
      have h1 : (!s.connected) = false := by rw [hcc]; rfl
      rw [h1, if_neg Bool.false_ne_true, if_pos htr] at hret
      cases hwr : waitWhileAbove adj s ws with
      | none =>
        rw [hwr] at hret
        simp at hret
      | some u =>
        rw [hwr] at hret
        have hret2 : (if (!u.connected) = true then some (Except.error ())
            else some (Except.ok (writeSoonCore adj d u)))
            = some (Except.ok (t, n)) := hret
        cases hu : u.connected with
        | false =>
          have h2 : (!u.connected) = true := by rw [hu]; rfl
          rw [h2, if_pos rfl] at hret2
          simp at hret2
        | true =>
          have h2 : (!u.connected) = false := by rw [hu]; rfl
          rw [h2, if_neg Bool.false_ne_true] at hret2
          have hpair : writeSoonCore adj d u = (t, n) :=
            Except.ok.inj (Option.some.inj hret2)
          have ht : t = (writeSoonCore adj d u).1 := by rw [hpair]
          have hle := writeSoonCore_known_le adj d u hwf
          have hexit := waitWhileAbove_exit adj ws s u hwr hu
          rw [ht]
          omega

/-- Witness for write_soon_backpressure: a one-byte write on a fresh channel. -/
theorem write_soon_backpressure_witness :
    ((writeSoonCore adjD (WData.bytes [66]) initState).1).known_outbufs_len
      ≤ adjD.outbuf_high_watermark + (wBytes (WData.bytes [66]) : Int) :=
  (write_soon_backpressure adjD (WData.bytes [66]) [] initState
      True.intro rfl).2
    (writeSoonCore adjD (WData.bytes [66]) initState).1
    (writeSoonCore adjD (WData.bytes [66]) initState).2 rfl

/-- Claim C4: the 100-continue latch of received: with expect_continue and
headers_finished announced by the parser and sent_continue not yet latched,
exactly the preface bytes are appended to the tail output buffer, the
statistics grow by the preface length, has_outbuf_data and sent_continue are
set, an immediate flush is attempted, the parser's expect_continue flag is
cleared and the request is forced not completed; when sent_continue is already
latched only the flag is cleared and no bytes are appended. -/
theorem continue_latch_spec (sbuf : Nat) (so : List SendR) (s : CState)
    (p : Parser) (inv : Inv s) (hc : s.connected = true)
    (hec : p.expect_continue = true) (hhf : p.headers_finished = true) :
    (s.sent_continue = false →
      continueLatch sbuf so s p
        = (recvFlush sbuf so (sendContinue s),
           { p with expect_continue := false, completed := false })
      ∧ pendingQ (sendContinue s).outbufs = pendingQ s.outbufs ++ prefaceBytes
      ∧ (sendContinue s).appended = s.appended ++ prefaceBytes
      ∧ (sendContinue s).known_outbufs_len
          = s.known_outbufs_len + (prefaceBytes.length : Int)
      ∧ (sendContinue s).current_outbuf_count
          = s.current_outbuf_count + (prefaceBytes.length : Int)
      ∧ (sendContinue s).has_outbuf_data = true
      ∧ (sendContinue s).sent_continue = true)
    ∧ (s.sent_continue = true →
      continueLatch sbuf so s p = (s, { p with expect_continue := false })) := by
  constructor
  · intro hsc
    have heq : continueLatch sbuf so s p
        = (recvFlush sbuf so (sendContinue s),
           { p with expect_continue := false, completed := false }) := by
      unfold continueLatch
      rw [hec, hhf, hsc]
      rfl
    refine ⟨heq, ?_, rfl, rfl, rfl, rfl, rfl⟩
    have hgt : GoodTail s.outbufs := inv.2.2.1 hc
    have hne : s.outbufs ≠ [] := goodTail_ne_nil hgt
    show pendingQ (appendToTail s.outbufs prefaceBytes)
        = pendingQ s.outbufs ++ prefaceBytes
    exact pendingQ_appendToTail s.outbufs prefaceBytes hne inv.1
  · intro hsc
    unfold continueLatch
    rw [hec, hhf, hsc]
    rfl

/-- Witness for continue_latch_spec: the latch fires on a fresh channel. -/
theorem continue_latch_spec_witness :
    pendingQ (sendContinue initState).outbufs
        = pendingQ initState.outbufs ++ prefaceBytes
    ∧ (sendContinue initState).sent_continue = true :=
  ⟨((continue_latch_spec 1 [] initState pEC inv_init rfl rfl rfl).1 rfl).2.1,
   ((continue_latch_spec 1 [] initState pEC inv_init rfl rfl rfl).1
      rfl).2.2.2.2.2.2⟩

end Waitress

namespace Waitress

/-- Claim C5: flush-mode selection of handle_write on a connected channel:
handle_write runs the flush phase, then the close_when_flushed promotion and an
eventual handle_close; with no pending request the drain is an unlocked flush
attempt (no try-acquire event); with requests pending and at least send_bytes
of known data or any unseekable data, the drain runs only under a non-blocking
try-acquire (a failed acquire flushes nothing), and after a completed drain
the condition is notified exactly when known_outbufs_len fell below the high
watermark; below both thresholds no flush is attempted that tick. -/
theorem handle_write_flush_modes (adj : Adj) (sbuf : Nat) (acq : Bool)
    (so : List SendR) (s : CState) (hc : s.connected = true) :
    handleWrite adj sbuf acq so s
      = (if (hwPromote (hwFlush adj sbuf acq so s)).will_close = true
         then handleClose (hwPromote (hwFlush adj sbuf acq so s))
         else hwPromote (hwFlush adj sbuf acq so s))
    ∧ (s.requests = [] →
        hwFlush adj sbuf acq so s = flushCatch sbuf so false s
        ∧ ∃ ext, (flushCatch sbuf so false s).events
            = (s.events ++ [Ev.flushAttempt false]) ++ ext
          ∧ ∀ e ∈ ext, ∃ hd, e = Ev.closeEv hd)
    ∧ (s.requests ≠ [] →
        (adj.send_bytes ≤ s.known_outbufs_len ∨ s.has_unseekable_outbufs = true) →
        (acq = false →
          hwFlush adj sbuf acq so s
            = { s with events := s.events ++ [Ev.tryAcquire false] })
        ∧ (acq = true →
          ∀ t : CState,
            flushSome sbuf so
              { s with events :=
                  (s.events ++ [Ev.tryAcquire true]) ++ [Ev.flushAttempt true] }
              = Except.ok t →
            (t.known_outbufs_len < adj.outbuf_high_watermark →
              hwFlush adj sbuf acq so s
                = { t with events := t.events ++ [Ev.notifyEv] })
            ∧ (adj.outbuf_high_watermark ≤ t.known_outbufs_len →
              hwFlush adj sbuf acq so s = t)))
    ∧ (s.requests ≠ [] → s.known_outbufs_len < adj.send_bytes →
        s.has_unseekable_outbufs = false →
        hwFlush adj sbuf acq so s = s) := by
  refine ⟨?_, ?_, ?_, ?_⟩
  · have h1 : (!s.connected) = false := by rw [hc]; rfl
    unfold handleWrite
    rw [h1, if_neg Bool.false_ne_true]
  · intro hreq
    have hemp : s.requests.isEmpty = true := by rw [hreq]; rfl
    constructor
    · unfold hwFlush
      rw [hemp, if_pos rfl]
    · exact flushCatch_events sbuf so false s
  · intro hreq hthr
    have hemp : s.requests.isEmpty = false := by
      cases hl : s.requests
      · exact absurd hl hreq
      · rfl
    have hcond : (decide (s.known_outbufs_len ≥ adj.send_bytes)
        || s.has_unseekable_outbufs) = true := by
      rcases hthr with h | h
      · rw [decide_eq_true h]
        rfl
      · rw [h, Bool.or_true]
    constructor
    · intro hacq
      subst hacq
      unfold hwFlush
      rw [hemp, if_neg Bool.false_ne_true, if_pos hcond]
      have hfl : flushSomeIfLockable adj sbuf false so s
          = Except.ok { s with events := s.events ++ [Ev.tryAcquire false] } := by
        unfold flushSomeIfLockable
        rfl
      rw [hfl]
    · intro hacq t hft
      subst hacq
      unfold hwFlush
      rw [hemp, if_neg Bool.false_ne_true, if_pos hcond]
      have hfl : flushSomeIfLockable adj sbuf true so s
          = Except.ok (if t.known_outbufs_len < adj.outbuf_high_watermark
              then { t with events := t.events ++ [Ev.notifyEv] } else t) := by
        unfold flushSomeIfLockable
        rw [if_pos rfl, hft]
      constructor
      · intro hlt
        rw [hfl, if_pos hlt]
      · intro hge
        rw [hfl, if_neg (by omega)]
  · intro hreq hlt hun
    have hemp : s.requests.isEmpty = false := by
      cases hl : s.requests
      · exact absurd hl hreq
      · rfl
    unfold hwFlush
    rw [hemp, if_neg Bool.false_ne_true]
    have hcond : (decide (s.known_outbufs_len ≥ adj.send_bytes)
        || s.has_unseekable_outbufs) = false := by
      rw [hun, Bool.or_false]
      exact decide_eq_false (by omega)
    rw [hcond, if_neg Bool.false_ne_true]

/-- Witness for handle_write_flush_modes: a failed try-acquire on a channel
with a pending request and queued data flushes nothing. -/
theorem handle_write_flush_modes_witness :
    hwFlush adjD 8 false [SendR.ok 10] s5
      = { s5 with events := s5.events ++ [Ev.tryAcquire false] } :=
  ((handle_write_flush_modes adjD 8 false [SendR.ok 10] s5 rfl).2.2.1
    (by decide) (Or.inl (by decide))).1 rfl

/-- Claim C7: worker-exception recovery in service: when the task raises an
exception other than ClientDisconnected and had not yet written response
headers, an error task is executed against a synthetic InternalServerError
request whose body is the traceback exactly when adj.expose_tracebacks (a
fixed generic message otherwise), which preserves the original request's HTTP
version and copies its CONNECTION header when present; when headers were
already written the task counts as close_on_finish, which makes the service
loop set close_when_flushed. -/
theorem service_exception_recovery (adj : Adj) (tk : TaskO) (ek : ErrTaskO)
    (r : Parser) (s : CState) (tb : String)
    (hout : tk.outcome = TOutcome.exc tb)
    (hnd : (execWrites adj tk.writes s).2 = false) :
    (tk.wrote_header = false →
      ∃ pre q, (serviceOne adj tk ek r s).1.events = pre ++ [Ev.execTask true q]
        ∧ q.error = some (if adj.expose_tracebacks then tb else genericErrBody)
        ∧ q.version = r.version
        ∧ hdrGet q.headers "CONNECTION" = hdrGet r.headers "CONNECTION")
    ∧ (tk.wrote_header = true →
      (serviceOne adj tk ek r s).2 = true
      ∧ ∀ (os : List (TaskO × ErrTaskO)) (rest : List Parser),
          s.requests = r :: rest →
          (serviceLoop adj ((tk, ek) :: os) s).close_when_flushed = true) := by
  have hsel : (if (execWrites adj tk.writes s).2 = true
      then TOutcome.disc else tk.outcome) = TOutcome.exc tb := by
    rw [hnd, if_neg Bool.false_ne_true, hout]
  have hso : serviceOne adj tk ek r s
      = (if (!tk.wrote_header) = true then
          serviceErrPath adj ek tb r
            (execTaskEv r.error.isSome r (execWrites adj tk.writes s).1)
        else (execTaskEv r.error.isSome r (execWrites adj tk.writes s).1,
          true)) := by
    unfold serviceOne
    rw [hsel]
  constructor
  · intro hwh
    have hwh2 : (!tk.wrote_header) = true := by rw [hwh]; rfl
    rw [hso, hwh2, if_pos rfl]
    refine ⟨((execWrites adj ek.writes
        (execTaskEv r.error.isSome r (execWrites adj tk.writes s).1)).1).events,
      mkErrorRequest (if adj.expose_tracebacks then tb else genericErrBody) r,
      rfl, ?_, ?_, ?_⟩
    · exact (mkErrorRequest_spec _ r).1
    · exact (mkErrorRequest_spec _ r).2.1
    · exact (mkErrorRequest_spec _ r).2.2
  · intro hwh
    have hwh2 : (!tk.wrote_header) = false := by rw [hwh]; rfl
    have hsnd : (serviceOne adj tk ek r s).2 = true := by
      rw [hso, hwh2, if_neg Bool.false_ne_true]
    refine ⟨hsnd, ?_⟩
    intro os rest hreqs
    have hloop : serviceLoop adj ((tk, ek) :: os) s
        = { (serviceOne adj tk ek r s).1 with
            close_when_flushed := true, requests := [] } := by
      unfold serviceLoop
      split
      · next heq =>
        rw [hreqs] at heq
        simp at heq
      · next r2 rest2 heq =>
        rw [hreqs] at heq
        injection heq with h1 h2
        subst h1
        subst h2
        rw [if_pos hsnd]
    rw [hloop]

/-- Witness for service_exception_recovery: a task raising before the header
on a fresh channel with tracebacks not exposed. -/
theorem service_exception_recovery_witness :
    ∃ pre q, (serviceOne adjD tk7 ek6 freshParser initState).1.events
        = pre ++ [Ev.execTask true q]
      ∧ q.error = some (if adjD.expose_tracebacks then "boom" else genericErrBody)
      ∧ q.version = freshParser.version
      ∧ hdrGet q.headers "CONNECTION" = hdrGet freshParser.headers "CONNECTION" :=
  (service_exception_recovery adjD tk7 ek6 freshParser initState "boom"
    rfl rfl).1 rfl

end Waitress

namespace Waitress

/-- Claim C6 (amended): flush-then-close discipline of handle_write when the
socket accepts sends without error: starting from a channel not already marked
will_close, with a send oracle of plain accepting sends every handle_close
performed by the tick happens with has_outbuf_data false, and such a close is
always preceded by the promotion of close_when_flushed to will_close.  (The
unamended claim is refuted by flush_then_close_counterexample: a socket error
during the flush closes the channel with data still pending.) -/
theorem flush_then_close_amended (adj : Adj) (sbuf : Nat) (acq : Bool)
    (so : List SendR) (s : CState) (hwc : s.will_close = false)
    (hok : ∀ r ∈ so, ∃ n, r = SendR.ok n) :
    ∃ ext, (handleWrite adj sbuf acq so s).events = s.events ++ ext
      ∧ (∀ hd, Ev.closeEv hd ∈ ext → hd = false)
      ∧ (Ev.closeEv false ∈ ext → Ev.promote ∈ ext) := by
  rcases hwFlush_allok adj sbuf acq so s hok with ⟨hfw, hfc, ext0, hfe, hnc⟩
  by_cases hc : s.connected = true
  · have hcn : (!s.connected) = false := by rw [hc]; rfl
    unfold handleWrite
    rw [hcn, if_neg Bool.false_ne_true]
    by_cases hpc : ((hwFlush adj sbuf acq so s).close_when_flushed
        && !(hwFlush adj sbuf acq so s).has_outbuf_data) = true
    · have hhd : (hwFlush adj sbuf acq so s).has_outbuf_data = false := by
        cases hh : (hwFlush adj sbuf acq so s).has_outbuf_data
        · rfl
        · rw [hh] at hpc
          simp at hpc
      have hgp : hwPromote (hwFlush adj sbuf acq so s)
          = { hwFlush adj sbuf acq so s with
              close_when_flushed := false, will_close := true,
              events := (hwFlush adj sbuf acq so s).events ++ [Ev.promote] } := by
        unfold hwPromote
        rw [if_pos hpc]
      rw [hgp]
      refine ⟨ext0 ++ [Ev.promote, Ev.closeEv false], ?_, ?_, ?_⟩
      · show ((hwFlush adj sbuf acq so s).events ++ [Ev.promote])
            ++ [Ev.closeEv (hwFlush adj sbuf acq so s).has_outbuf_data]
          = s.events ++ (ext0 ++ [Ev.promote, Ev.closeEv false])
        rw [hhd, hfe]
        simp
      · intro hd hmem
        rcases List.mem_append.mp hmem with h | h
        · exact absurd h (hnc hd)
        · simpa using h
      · intro hmem
        exact List.mem_append.mpr (Or.inr (by simp))
    · have hgp : hwPromote (hwFlush adj sbuf acq so s)
          = hwFlush adj sbuf acq so s := by
        unfold hwPromote
        rw [if_neg hpc]
      rw [hgp]
      have hfwf : (hwFlush adj sbuf acq so s).will_close = false := by
        rw [hfw, hwc]
      rw [if_neg (by rw [hfwf]; exact Bool.false_ne_true)]
      refine ⟨ext0, hfe, ?_, ?_⟩
      · intro hd hmem
        exact absurd hmem (hnc hd)
      · intro hmem
        exact absurd hmem (hnc false)
  · have hcn : (!s.connected) = true := by
      cases hcc : s.connected
      · rfl
      · exact absurd hcc hc
    unfold handleWrite
    rw [hcn, if_pos rfl]
    refine ⟨[], by simp, ?_, ?_⟩
    · intro hd hmem
      cases hmem
    · intro hmem
      cases hmem

/-- Witness for flush_then_close_amended: with an accepting socket the channel
of the counterexample drains its byte, promotes and closes cleanly. -/
theorem flush_then_close_amended_witness :
    ∃ ext, (handleWrite adjD 1 false [SendR.ok 5] cs6).events
        = cs6.events ++ ext
      ∧ (∀ hd, Ev.closeEv hd ∈ ext → hd = false)
      ∧ (Ev.closeEv false ∈ ext → Ev.promote ∈ ext) :=
  flush_then_close_amended adjD 1 false [SendR.ok 5] cs6 (by decide)
    (by intro r hr
        rw [List.mem_singleton] at hr
        exact ⟨5, hr⟩)

/-- Counterexample to claim C6 as stated: cs6 is reachable from a fresh
channel (one request received, serviced by a close_on_finish task that queued
one byte), so close_when_flushed is set while a byte of output is pending; a
socket error during the next handle_write tick then calls handle_close with
has_outbuf_data still true and without any promotion, so close occurs before
has_data is false. -/
theorem flush_then_close_counterexample :
    Reach adjD 1 cs6
    ∧ cs6.close_when_flushed = true
    ∧ cs6.has_outbuf_data = true
    ∧ Ev.closeEv true ∈ (handleWrite adjD 1 false [SendR.err] cs6).events
    ∧ Ev.promote ∉ (handleWrite adjD 1 false [SendR.err] cs6).events
    ∧ (handleWrite adjD 1 false [SendR.err] cs6).connected = false := by
  refine ⟨?_, by decide, by decide, by decide, by decide, by decide⟩
  have h1 : Reach adjD 1 (received 1 [({ n := 1, after := pDone }, [])] 1
      initState) :=
    Reach.step Reach.init (Step.recv initState _ 1 rfl)
  exact Reach.step h1 (Step.svc _ [(tk6, ek6)] (by
    intro p hp
    have hp2 : p = (tk6, ek6) := by simpa using hp
    subst hp2
    constructor
    · intro d hd
      have hd2 : d = WData.bytes [65] := by simpa [tk6] using hd
      subst hd2
      exact True.intro
    · intro d hd
      simp [ek6] at hd))

end Waitress

namespace Waitress

/-- Claim C8: in every reachable channel state the cached output statistics
agree with a scan of the queue: known_outbufs_len is the sum of remaining over
the seekable buffers, has_unseekable_outbufs holds iff some queued buffer is
unseekable, and has_outbuf_data is true iff known_outbufs_len is nonzero or
has_unseekable_outbufs holds. -/
theorem outbuf_stats_invariant (adj : Adj) (sbuf : Nat) (hs : 0 < sbuf)
    (s : CState) (hr : Reach adj sbuf s) :
    s.known_outbufs_len = scanKnown s.outbufs
    ∧ s.has_unseekable_outbufs = scanUnseek s.outbufs
    ∧ (s.has_outbuf_data = true ↔
        (s.known_outbufs_len ≠ 0 ∨ s.has_unseekable_outbufs = true)) := by
  have inv := reach_inv hs hr
  rcases inv.2.1 with ⟨h1, h2, h3⟩
  refine ⟨h1, h2, ?_⟩
  rw [h3]
  simp [Bool.or_eq_true, bne_iff_ne]

/-- Witness for outbuf_stats_invariant at the freshly initialised channel. -/
theorem outbuf_stats_invariant_witness :
    initState.known_outbufs_len = scanKnown initState.outbufs
    ∧ initState.has_unseekable_outbufs = scanUnseek initState.outbufs
    ∧ (initState.has_outbuf_data = true ↔
        (initState.known_outbufs_len ≠ 0
          ∨ initState.has_unseekable_outbufs = true)) :=
  outbuf_stats_invariant adjD 1 Nat.one_pos initState Reach.init

/-- Claim C9: in every reachable connected channel state the tail buffer of
the output deque exists and is a writable OverflowableBuffer (overflowable
kind, no recorded EOF): the constructor seeds one, write_soon pushes a fresh
one behind every file buffer and on rotation, and the flush loop never pops
the sole remaining buffer. -/
theorem writable_tail_invariant (adj : Adj) (sbuf : Nat) (hs : 0 < sbuf)
    (s : CState) (hr : Reach adj sbuf s) (hc : s.connected = true) :
    ∃ b, s.outbufs.getLast? = some b
      ∧ b.kind = BufKind.overflowable ∧ b.eof = false :=
  (reach_inv hs hr).2.2.1 hc

/-- Witness for writable_tail_invariant at the freshly initialised channel. -/
theorem writable_tail_invariant_witness :
    ∃ b, initState.outbufs.getLast? = some b
      ∧ b.kind = BufKind.overflowable ∧ b.eof = false :=
  writable_tail_invariant adjD 1 Nat.one_pos initState Reach.init rfl

/-- Claim C10: channel-lifetime 100-continue latch: sent_continue starts
false, no channel operation ever clears it once set, and in every reachable
state the 100 Continue preface has been emitted at most once - never at all
while sent_continue is still false - so a channel writes the preface at most
once across all requests of the connection. -/
theorem sent_continue_latch_lifetime (adj : Adj) (sbuf : Nat) (hs : 0 < sbuf) :
    initState.sent_continue = false
    ∧ (∀ s t : CState, Step adj sbuf s t →
        s.sent_continue = true → t.sent_continue = true)
    ∧ (∀ s : CState, Reach adj sbuf s → countPreface s.events ≤ 1)
    ∧ (∀ s : CState, Reach adj sbuf s → s.sent_continue = false →
        countPreface s.events = 0) := by
  refine ⟨rfl, ?_, ?_, ?_⟩
  · intro s t hst h
    exact sc_step hst h
  · intro s hr
    have hcp : cpOK s := inv_cpOK (reach_inv hs hr)
    unfold cpOK at hcp
    by_cases hsc : s.sent_continue = true
    · rw [if_pos hsc] at hcp
      exact hcp
    · rw [if_neg hsc] at hcp
      omega
  · intro s hr hsc
    have hcp : cpOK s := inv_cpOK (reach_inv hs hr)
    unfold cpOK at hcp
    rw [hsc, if_neg Bool.false_ne_true] at hcp
    exact hcp

/-- Witness for sent_continue_latch_lifetime at the fresh channel. -/
theorem sent_continue_latch_lifetime_witness :
    initState.sent_continue = false ∧ countPreface initState.events ≤ 1 :=
  ⟨(sent_continue_latch_lifetime adjD 1 Nat.one_pos).1,
   (sent_continue_latch_lifetime adjD 1 Nat.one_pos).2.2.1 initState Reach.init⟩

end Waitress
